import Mathlib

/-!
Verification development for the dairy-management backend.

The repository keeps two parallel controller implementations (a Prisma/SQL
variant and a Firestore variant) with identical data contracts.  This file
gives a shallow embedding of the store state and of the controller logic:
JS numbers are modelled as rationals, date strings as Lean strings compared
lexicographically (dates are YYYY-MM-DD strings in the source, so string
comparison coincides with date order), timestamps as naturals, and the
database tables as lists of rows.  Fresh primary keys are modelled by a
counter.  The idiom `x || 0` in the source guards against missing fields and
is the identity on present numeric values, so it is embedded as the value
itself; likewise `notes || ''` is the identity on strings.
-/

namespace DairySpec

/-- The two delivery shifts, `morning` and `evening` in the source enum. -/
inductive Shift where
  | morning
  | evening
  deriving DecidableEq, Repr

/-- A customer row: id, name, address, per-shift quotas, price, active flag. -/
structure Customer where
  id : String
  name : String
  address : String
  morningQuota : ℚ
  eveningQuota : ℚ
  pricePerLiter : ℚ
  isActive : Bool
  deriving DecidableEq, Repr

/-- A delivery row as stored in the Delivery table.  `id` is the primary key
(modelled as a natural drawn from a counter), `quota` is the snapshot taken at
creation, timestamps are naturals. -/
structure DeliveryRow where
  id : Nat
  customerId : String
  date : String
  shift : Shift
  quota : ℚ
  actualAmount : ℚ
  delivered : Bool
  notes : String
  createdAt : Nat
  updatedAt : Nat
  deriving DecidableEq, Repr

/-- A stock-intake row; only `quantity` is read by the inventory computation. -/
structure StockRow where
  id : Nat
  date : String
  shift : Shift
  source : String
  quantity : ℚ
  deriving DecidableEq, Repr

/-- One entry of a bulk delivery update request. -/
structure BulkEntry where
  customerId : String
  actualAmount : ℚ
  delivered : Bool
  notes : String
  deriving DecidableEq, Repr

/-- The backing store: customer, delivery and stock tables plus the fresh-id
counter for created delivery rows. -/
structure Store where
  customers : List Customer
  deliveries : List DeliveryRow
  stocks : List StockRow
  nextId : Nat
  deriving DecidableEq, Repr

/-- The per-shift quota of a customer:
`shift === Shift.MORNING ? customer.morningQuota : customer.eveningQuota`. -/
def shiftQuota (c : Customer) (sh : Shift) : ℚ :=
  match sh with
  | Shift.morning => c.morningQuota
  | Shift.evening => c.eveningQuota

/-- The three-part delivery key test used by every `findFirst` /
`where customerId ==, date ==, shift ==` query in the source. -/
def keyMatch (r : DeliveryRow) (cid d : String) (sh : Shift) : Bool :=
  r.customerId == cid && r.date == d && r.shift == sh

/-- `prisma.delivery.findFirst` by (customerId, date, shift). -/
def findDelivery? (rows : List DeliveryRow) (cid d : String) (sh : Shift) :
    Option DeliveryRow :=
  rows.find? (fun r => keyMatch r cid d sh)

/-- `update({ where: { id } , data })`: update every row carrying the given
primary key (with unique keys, exactly the one row). -/
def updateById (rows : List DeliveryRow) (i : Nat) (f : DeliveryRow → DeliveryRow) :
    List DeliveryRow :=
  rows.map (fun r => if r.id == i then f r else r)

/-- The shared upsert body of `upsertDelivery` and `bulkUpdateDeliveries`
(both variants): find the row by (customerId, date, shift); update
actualAmount/delivered/notes if found, else create a row carrying a quota
snapshot from the customer's current per-shift quota. -/
def applyUpsert (st : Store) (c : Customer) (d : String) (sh : Shift)
    (amt : ℚ) (dl : Bool) (nt : String) (now : Nat) : Store :=
  match findDelivery? st.deliveries c.id d sh with
  | some r =>
    { st with
      deliveries := updateById st.deliveries r.id
        (fun x => { x with actualAmount := amt, delivered := dl, notes := nt,
                           updatedAt := now }) }
  | none =>
    { st with
      deliveries := st.deliveries ++
        [{ id := st.nextId, customerId := c.id, date := d, shift := sh,
           quota := shiftQuota c sh, actualAmount := amt, delivered := dl,
           notes := nt, createdAt := now, updatedAt := now }],
      nextId := st.nextId + 1 }

/-- `upsertDelivery`: 404 (`none`) when the customer does not exist, else the
manual upsert. -/
def upsertDelivery (st : Store) (cid d : String) (sh : Shift)
    (amt : ℚ) (dl : Bool) (nt : String) (now : Nat) : Option Store :=
  match st.customers.find? (fun c => c.id == cid) with
  | none => none
  | some c => some (applyUpsert st c d sh amt dl nt now)

/-- One iteration of the `bulkUpdateDeliveries` transaction body: entries
whose customerId references no customer are skipped (`continue`), the rest
get the upsert body. -/
def bulkStep (d : String) (sh : Shift) (now : Nat) (st : Store) (e : BulkEntry) :
    Store :=
  match st.customers.find? (fun c => c.id == e.customerId) with
  | none => st
  | some c => applyUpsert st c d sh e.actualAmount e.delivered e.notes now

/-- `bulkUpdateDeliveries`: the whole entry list applied inside one
transaction, modelled as a single fold over the store state. -/
def bulkUpdateDeliveries (s : Store) (d : String) (sh : Shift)
    (es : List BulkEntry) (now : Nat) : Store :=
  es.foldl (bulkStep d sh now) s

/-- One iteration of the autofill loop (Prisma variant): skip quota ≤ 0,
else update the existing row to (quota, delivered) or create it, and count
the touched row. -/
def autofillStep (d : String) (sh : Shift) (now : Nat)
    (acc : Store × Nat) (c : Customer) : Store × Nat :=
  let q := shiftQuota c sh
  if q ≤ 0 then acc
  else
    match findDelivery? acc.1.deliveries c.id d sh with
    | some r =>
      ({ acc.1 with
         deliveries := updateById acc.1.deliveries r.id
           (fun x => { x with actualAmount := q, delivered := true,
                              updatedAt := now }) }, acc.2 + 1)
    | none =>
      ({ acc.1 with
         deliveries := acc.1.deliveries ++
           [{ id := acc.1.nextId, customerId := c.id, date := d, shift := sh,
              quota := q, actualAmount := q, delivered := true, notes := "",
              createdAt := now, updatedAt := now }],
         nextId := acc.1.nextId + 1 }, acc.2 + 1)

/-- `autofillDeliveries` (Prisma variant): loop over the active customers;
the returned count increments for every touched (updated or created) row. -/
def autofillDeliveries (s : Store) (d : String) (sh : Shift) (now : Nat) :
    Store × Nat :=
  (s.customers.filter (fun c => c.isActive)).foldl (autofillStep d sh now) (s, 0)

/-- One iteration of the autofill loop (Firestore variant): the state effect
is the same, but only the create branch pushes onto `createdDeliveries`, so
only creations are counted. -/
def autofillStepFS (d : String) (sh : Shift) (now : Nat)
    (acc : Store × Nat) (c : Customer) : Store × Nat :=
  let q := shiftQuota c sh
  if q ≤ 0 then acc
  else
    match findDelivery? acc.1.deliveries c.id d sh with
    | some r =>
      ({ acc.1 with
         deliveries := updateById acc.1.deliveries r.id
           (fun x => { x with actualAmount := q, delivered := true,
                              updatedAt := now }) }, acc.2)
    | none =>
      ({ acc.1 with
         deliveries := acc.1.deliveries ++
           [{ id := acc.1.nextId, customerId := c.id, date := d, shift := sh,
              quota := q, actualAmount := q, delivered := true, notes := "",
              createdAt := now, updatedAt := now }],
         nextId := acc.1.nextId + 1 }, acc.2 + 1)

/-- `autofillDeliveries` (Firestore variant): same loop, but the response
count is `createdDeliveries.length`, counting only newly created rows. -/
def autofillDeliveriesFS (s : Store) (d : String) (sh : Shift) (now : Nat) :
    Store × Nat :=
  (s.customers.filter (fun c => c.isActive)).foldl (autofillStepFS d sh now) (s, 0)

/-- `clearDeliveries`: `updateMany` over all rows matching (date, shift),
zeroing actualAmount and resetting delivered; rows are not deleted. -/
def clearDeliveries (s : Store) (d : String) (sh : Shift) (now : Nat) : Store :=
  { s with deliveries := s.deliveries.map (fun r =>
      if r.date == d && r.shift == sh then
        { r with actualAmount := 0, delivered := false, updatedAt := now }
      else r) }

/-! ### Billing (billingController.getMonthlyBilling, both variants) -/

/-- `String(n).padStart(2, '0')` for the month component. -/
def pad2 (n : Nat) : String :=
  if n < 10 then "0" ++ toString n else toString n

/-- Gregorian leap year, as implemented by the JS `Date` rollover. -/
def isLeapYear (y : Nat) : Bool :=
  y % 4 == 0 && (y % 100 != 0 || y % 400 == 0)

/-- `new Date(year, month, 0).getDate()`: the day count of month `m` (1..12)
of year `y`. -/
def daysInMonth (y m : Nat) : Nat :=
  if m == 2 then (if isLeapYear y then 29 else 28)
  else if m == 4 || m == 6 || m == 9 || m == 11 then 30
  else 31

/-- The `startDate` string of the requested month. -/
def monthStart (y m : Nat) : String :=
  toString y ++ "-" ++ pad2 m ++ "-01"

/-- The `endDate` string of the requested month (last calendar day). -/
def monthEnd (y m : Nat) : String :=
  toString y ++ "-" ++ pad2 m ++ "-" ++ toString (daysInMonth y m)

/-- One entry of a customer's daily billing breakdown. -/
structure DailyRecord where
  date : String
  morningAmount : ℚ
  eveningAmount : ℚ
  totalAmount : ℚ
  deriving DecidableEq, Repr

/-- The per-customer monthly billing summary. -/
structure BillingSummary where
  customerId : String
  customerName : String
  customerAddress : String
  month : Nat
  year : Nat
  totalLiters : ℚ
  pricePerLiter : ℚ
  totalAmount : ℚ
  dailyBreakdown : List DailyRecord
  deriving DecidableEq, Repr

/-- One `dailyMap` step: fetch the bucket pair for the date (inserting a fresh
zero pair on a new date, as `dailyMap.get(date) || {morning: 0, evening: 0}`),
add the amount to the shift's bucket and store it back.  A JS `Map.set` keeps
the position of an existing key and appends a new one. -/
def bucketAdd (m : List (String × ℚ × ℚ)) (d : String) (sh : Shift) (amt : ℚ) :
    List (String × ℚ × ℚ) :=
  if m.any (fun e => e.1 == d) then
    m.map (fun e =>
      if e.1 == d then
        match sh with
        | Shift.morning => (e.1, e.2.1 + amt, e.2.2)
        | Shift.evening => (e.1, e.2.1, e.2.2 + amt)
      else e)
  else
    match sh with
    | Shift.morning => m ++ [(d, amt, 0)]
    | Shift.evening => m ++ [(d, 0, amt)]

/-- The delivered deliveries of one customer inside the month window, as
queried per customer (`customerId ==`, `date >= start`, `date <= end`,
`delivered == true`); the Prisma variant fetches the whole window once and
groups by customerId, which yields the same per-customer list. -/
def custDeliveries (s : Store) (c : Customer) (m y : Nat) : List DeliveryRow :=
  s.deliveries.filter (fun r =>
    r.customerId == c.id && monthStart y m ≤ r.date && r.date ≤ monthEnd y m
      && r.delivered)

/-- The accumulation loop over a customer's deliveries: running total of
liters and the per-date morning/evening buckets. -/
def billingFold (ds : List DeliveryRow) : ℚ × List (String × ℚ × ℚ) :=
  ds.foldl
    (fun acc r => (acc.1 + r.actualAmount, bucketAdd acc.2 r.date r.shift r.actualAmount))
    (0, [])

/-- Packaging of one sorted bucket entry into the response record, with
totalAmount = morningAmount + eveningAmount. -/
def toDailyRecord (e : String × ℚ × ℚ) : DailyRecord :=
  { date := e.1, morningAmount := e.2.1, eveningAmount := e.2.2,
    totalAmount := e.2.1 + e.2.2 }

/-- The billing summary of one customer: total liters, daily breakdown sorted
by date ascending (each entry's totalAmount being the morning+evening sum),
and totalAmount = totalLiters × the customer's current pricePerLiter. -/
def billingFor (s : Store) (c : Customer) (m y : Nat) : BillingSummary :=
  let acc := billingFold (custDeliveries s c m y)
  { customerId := c.id
    customerName := c.name
    customerAddress := c.address
    month := m
    year := y
    totalLiters := acc.1
    pricePerLiter := c.pricePerLiter
    totalAmount := acc.1 * c.pricePerLiter
    dailyBreakdown :=
      (List.insertionSort (fun a b => a.1 ≤ b.1) acc.2).map toDailyRecord }

/-- `getMonthlyBilling`: one summary per active customer, name-ascending. -/
def getMonthlyBilling (s : Store) (m y : Nat) : List BillingSummary :=
  (List.insertionSort (fun a b => a.name ≤ b.name)
      (s.customers.filter (fun c => c.isActive))).map
    (fun c => billingFor s c m y)

/-! ### Inventory (stockController.getCurrentInventory, both variants) -/

/-- The inventory response record. -/
structure InventoryInfo where
  currentInventory : ℚ
  maxCapacity : ℚ
  percentage : ℚ
  lowStock : Bool
  deriving DecidableEq, Repr

/-- `getCurrentInventory`: sum all stock quantities, sum actualAmount over
delivered rows, subtract, clamp the reported inventory at 0 and the
percentage into [0, 100].  `maxCapacity` comes from the settings record. -/
def getCurrentInventory (s : Store) (maxCapacity : ℚ) : InventoryInfo :=
  let totalStockIn := s.stocks.foldl (fun t k => t + k.quantity) 0
  let totalDelivered :=
    (s.deliveries.filter (fun r => r.delivered)).foldl
      (fun t r => t + r.actualAmount) 0
  let currentInventory := totalStockIn - totalDelivered
  let percentage := min ((currentInventory / maxCapacity) * 100) 100
  { currentInventory := max 0 currentInventory
    maxCapacity := maxCapacity
    percentage := max 0 percentage
    lowStock := decide (percentage < 20) }

/-! ### Dashboard comparison (dashboardController.getYesterdayComparison) -/

/-- Sum of `actualAmount` over rows with the given date and delivered=true,
as both variants compute a day's total. -/
def dayTotal (rows : List DeliveryRow) (d : String) : ℚ :=
  (rows.filter (fun r => r.date == d && r.delivered)).foldl
    (fun t r => t + r.actualAmount) 0

/-- JavaScript `Math.round`: round half toward positive infinity. -/
def jsRound (q : ℚ) : Int := ⌊q + 1/2⌋

/-- `getYesterdayComparison`: today's and yesterday's delivered totals and the
rounded percentage change, which stays 0 unless yesterday's total is
positive. -/
def getYesterdayComparison (s : Store) (todayStr yesterdayStr : String) :
    ℚ × ℚ × Int :=
  let todayTotal := dayTotal s.deliveries todayStr
  let yesterdayTotal := dayTotal s.deliveries yesterdayStr
  let pc :=
    if 0 < yesterdayTotal then ((todayTotal - yesterdayTotal) / yesterdayTotal) * 100
    else 0
  (todayTotal, yesterdayTotal, jsRound pc)

/-! ### Generic helper lemmas -/

/-- Folding `t + f a` over a list equals the initial value plus the mapped sum. -/
theorem foldl_add_map_sum {α : Type} (f : α → ℚ) (l : List α) (x : ℚ) :
    l.foldl (fun t a => t + f a) x = x + (l.map f).sum := by
  induction l generalizing x with
  | nil => simp
  | cons a l ih => simp [ih, add_assoc]

/-- The liter total carried by a bucket list: the sum of morning+evening
pairs. -/
def bsum (m : List (String × ℚ × ℚ)) : ℚ :=
  (m.map (fun e => e.2.1 + e.2.2)).sum

theorem bsum_nil : bsum [] = 0 := rfl

theorem bsum_cons (a : String × ℚ × ℚ) (l : List (String × ℚ × ℚ)) :
    bsum (a :: l) = (a.2.1 + a.2.2) + bsum l := by
  simp [bsum]

/-- A keyed map over a bucket list is the identity when no key matches. -/
theorem bucket_map_no_match (m : List (String × ℚ × ℚ)) (d : String)
    (f : String × ℚ × ℚ → String × ℚ × ℚ)
    (h : ∀ e ∈ m, (e.1 == d) = false) :
    m.map (fun e => if e.1 == d then f e else e) = m := by
  have := List.map_congr_left (l := m)
    (f := fun e => if e.1 == d then f e else e) (g := id)
    (fun e he => by simp [h e he])
  simpa using this

/-- Updating the (unique, by nodup keys) matching bucket with a function that
adds `amt` to the pair sum adds `amt` to the bucket total. -/
theorem bsum_map_update (m : List (String × ℚ × ℚ)) (d : String) (amt : ℚ)
    (f : String × ℚ × ℚ → String × ℚ × ℚ)
    (hf : ∀ e, (f e).2.1 + (f e).2.2 = e.2.1 + e.2.2 + amt)
    (hnd : (m.map Prod.fst).Nodup)
    (hany : m.any (fun e => e.1 == d) = true) :
    bsum (m.map (fun e => if e.1 == d then f e else e)) = bsum m + amt := by
  induction m with
  | nil => simp at hany
  | cons a l ih =>
    rw [List.map_cons]
    by_cases ha : (a.1 == d) = true
    · have hd : a.1 = d := by simpa using ha
      have hl : ∀ e ∈ l, (e.1 == d) = false := by
        intro e he
        have : e.1 ≠ a.1 := by
          intro hc
          have : a.1 ∈ l.map Prod.fst := hc ▸ List.mem_map_of_mem Prod.fst he
          exact (List.nodup_cons.mp hnd).1 this
        simp [hd ▸ this]
      rw [if_pos ha, bucket_map_no_match l d f hl, bsum_cons, bsum_cons, hf]
      ring
    · have hany' : l.any (fun e => e.1 == d) = true := by
        rcases List.any_eq_true.mp hany with ⟨e, he, hee⟩
        rcases List.mem_cons.mp he with rfl | he'
        · exact absurd hee ha
        · exact List.any_eq_true.mpr ⟨e, he', hee⟩
      rw [if_neg ha, bsum_cons, bsum_cons,
        ih (List.nodup_cons.mp (by simpa using hnd)).2 hany']
      ring

/-- The keys of `bucketAdd`: unchanged on an existing date, the new date
appended otherwise. -/
theorem bucketAdd_keys (m : List (String × ℚ × ℚ)) (d : String) (sh : Shift)
    (amt : ℚ) :
    (bucketAdd m d sh amt).map Prod.fst =
      if m.any (fun e => e.1 == d) then m.map Prod.fst
      else m.map Prod.fst ++ [d] := by
  unfold bucketAdd
  by_cases hany : m.any (fun e => e.1 == d) = true
  · rw [if_pos hany, if_pos hany, List.map_map]
    refine List.map_congr_left (fun e he => ?_)
    by_cases hd : e.1 = d
    · cases sh <;> simp [hd]
    · simp [hd]
  · rw [if_neg hany, if_neg hany]
    cases sh <;> simp

/-- `bucketAdd` keeps bucket keys nodup. -/
theorem bucketAdd_keys_nodup (m : List (String × ℚ × ℚ)) (d : String)
    (sh : Shift) (amt : ℚ) (hnd : (m.map Prod.fst).Nodup) :
    ((bucketAdd m d sh amt).map Prod.fst).Nodup := by
  rw [bucketAdd_keys]
  by_cases hany : m.any (fun e => e.1 == d) = true
  · rwa [if_pos hany]
  · rw [if_neg hany]
    have hd : d ∉ m.map Prod.fst := by
      intro hc
      rcases List.mem_map.mp hc with ⟨e, he, hee⟩
      have : ∀ e ∈ m, ¬ (e.1 == d) = true := by
        intro e' he'
        exact fun hx => hany (List.any_eq_true.mpr ⟨e', he', hx⟩)
      exact this e he (by simp [hee])
    simp only [List.nodup_append]
    exact ⟨hnd, List.nodup_singleton d, by simpa using hd⟩

/-- `bucketAdd` adds the amount to the bucket total. -/
theorem bucketAdd_bsum (m : List (String × ℚ × ℚ)) (d : String) (sh : Shift)
    (amt : ℚ) (hnd : (m.map Prod.fst).Nodup) :
    bsum (bucketAdd m d sh amt) = bsum m + amt := by
  unfold bucketAdd
  by_cases hany : m.any (fun e => e.1 == d) = true
  · rw [if_pos hany]
    cases sh
    · exact bsum_map_update m d amt _ (fun e => by dsimp only; ring) hnd hany
    · exact bsum_map_update m d amt _ (fun e => by dsimp only; ring) hnd hany
  · rw [if_neg hany]
    cases sh <;> simp [bsum]

/-- The running liter total of the billing loop: initial value plus the sum
of the amounts. -/
theorem billingFold_fst (ds : List DeliveryRow) (x : ℚ)
    (m : List (String × ℚ × ℚ)) :
    (ds.foldl
      (fun acc r => (acc.1 + r.actualAmount, bucketAdd acc.2 r.date r.shift r.actualAmount))
      (x, m)).1 = x + (ds.map (fun r => r.actualAmount)).sum := by
  induction ds generalizing x m with
  | nil => simp
  | cons a l ih => simp [ih, add_assoc]

/-- The bucket list of the billing loop keeps nodup keys, and its total grows
by the sum of the amounts. -/
theorem billingFold_snd (ds : List DeliveryRow) (x : ℚ)
    (m : List (String × ℚ × ℚ)) (hnd : (m.map Prod.fst).Nodup) :
    (((ds.foldl
      (fun acc r => (acc.1 + r.actualAmount, bucketAdd acc.2 r.date r.shift r.actualAmount))
      (x, m)).2.map Prod.fst).Nodup)
    ∧ bsum (ds.foldl
      (fun acc r => (acc.1 + r.actualAmount, bucketAdd acc.2 r.date r.shift r.actualAmount))
      (x, m)).2 = bsum m + (ds.map (fun r => r.actualAmount)).sum := by
  induction ds generalizing x m with
  | nil => exact ⟨by simpa using hnd, by simp⟩
  | cons a l ih =>
    have h := ih (x + a.actualAmount) (bucketAdd m a.date a.shift a.actualAmount)
      (bucketAdd_keys_nodup m a.date a.shift a.actualAmount hnd)
    constructor
    · simpa only [List.foldl_cons] using h.1
    · simp only [List.foldl_cons, List.map_cons, List.sum_cons]
      rw [h.2, bucketAdd_bsum m a.date a.shift a.actualAmount hnd]
      ring

instance : IsTotal (String × ℚ × ℚ) (fun a b => a.1 ≤ b.1) :=
  ⟨fun a b => le_total a.1 b.1⟩

instance : IsTrans (String × ℚ × ℚ) (fun a b => a.1 ≤ b.1) :=
  ⟨fun _ _ _ h1 h2 => le_trans h1 h2⟩

/-! ### Sample data shared by witnesses and counterexamples -/

/-- A sample active customer with a positive morning quota. -/
def sampleCustomer : Customer :=
  { id := "c1", name := "Asha", address := "12 Dairy Lane", morningQuota := 2,
    eveningQuota := 0, pricePerLiter := 50, isActive := true }

/-- A sample delivered delivery row for `sampleCustomer`. -/
def sampleRow : DeliveryRow :=
  { id := 0, customerId := "c1", date := "2025-03-01", shift := Shift.morning,
    quota := 2, actualAmount := 1, delivered := false, notes := "",
    createdAt := 0, updatedAt := 0 }

/-- The empty store. -/
def emptyStore : Store :=
  { customers := [], deliveries := [], stocks := [], nextId := 0 }

/-- A delivered 50-liter row on 2025-03-02. -/
def rowToday : DeliveryRow :=
  { sampleRow with date := "2025-03-02", actualAmount := 50, delivered := true }

/-- A delivered 40-liter row on 2025-03-01. -/
def rowYesterday : DeliveryRow :=
  { sampleRow with id := 1, actualAmount := 40, delivered := true }

/-- A store with one active customer and one not-yet-delivered row for the
morning of 2025-03-01. -/
def sampleStore : Store :=
  { customers := [sampleCustomer], deliveries := [sampleRow], stocks := [],
    nextId := 1 }

/-- C3: `currentInventory()` returns `max(0, Σ stock.quantity − Σ actualAmount
over delivered=true rows)`: it is 0 on an empty ledger, never negative, and
deliveries with delivered=false do not enter the subtraction. -/
theorem inventory_clamped_balance (s : Store) (cap : ℚ) :
    (getCurrentInventory s cap).currentInventory =
      max 0 ((s.stocks.map (fun k => k.quantity)).sum -
        ((s.deliveries.filter (fun r => r.delivered)).map
          (fun r => r.actualAmount)).sum)
    ∧ (s.stocks = [] → s.deliveries = [] →
        (getCurrentInventory s cap).currentInventory = 0)
    ∧ 0 ≤ (getCurrentInventory s cap).currentInventory
    ∧ (∀ r : DeliveryRow, r.delivered = false →
        getCurrentInventory { s with deliveries := r :: s.deliveries } cap =
          getCurrentInventory s cap) := by
  refine ⟨?_, ?_, ?_, ?_⟩
  · simp [getCurrentInventory, foldl_add_map_sum]
  · intro h1 h2
    simp [getCurrentInventory, h1, h2]
  · simp [getCurrentInventory]
  · intro r hr
    simp [getCurrentInventory, List.filter_cons, hr]

/-- Witness for C3 at concrete stores: the empty ledger reports 0, and adding
an undelivered 30-liter row to a ledger with 100 in stock and 80 delivered
leaves the inventory at 20. -/
theorem inventory_clamped_balance_w :
    (getCurrentInventory emptyStore 2000).currentInventory = 0
    ∧ getCurrentInventory
        { emptyStore with
          stocks := [{ id := 0, date := "2025-03-01", shift := Shift.morning,
                       source := "farm", quantity := 100 }],
          deliveries :=
            { sampleRow with actualAmount := 30, delivered := false } ::
              [{ sampleRow with id := 1, actualAmount := 80, delivered := true }] } 2000 =
      getCurrentInventory
        { emptyStore with
          stocks := [{ id := 0, date := "2025-03-01", shift := Shift.morning,
                       source := "farm", quantity := 100 }],
          deliveries := [{ sampleRow with id := 1, actualAmount := 80, delivered := true }] } 2000 := by
  constructor
  · exact (inventory_clamped_balance emptyStore 2000).2.1 rfl rfl
  · exact (inventory_clamped_balance
      { emptyStore with
        stocks := [{ id := 0, date := "2025-03-01", shift := Shift.morning,
                     source := "farm", quantity := 100 }],
        deliveries := [{ sampleRow with id := 1, actualAmount := 80, delivered := true }] }
      2000).2.2.2 { sampleRow with actualAmount := 30, delivered := false } rfl

/-! ### Delivery key uniqueness -/

/-- Two delivery rows carry the same (customerId, date, shift) key. -/
abbrev sameKey (a b : DeliveryRow) : Prop :=
  a.customerId = b.customerId ∧ a.date = b.date ∧ a.shift = b.shift

/-- The store invariant backing the unique index
`Delivery_customerId_date_shift_key`: no two rows share a key. -/
abbrev KeyUnique (rows : List DeliveryRow) : Prop :=
  List.Pairwise (fun a b => ¬ sameKey a b) rows

theorem keyMatch_iff (r : DeliveryRow) (cid d : String) (sh : Shift) :
    keyMatch r cid d sh = true ↔ r.customerId = cid ∧ r.date = d ∧ r.shift = sh := by
  simp [keyMatch, Bool.and_assoc]

theorem sameKey_of_keyMatch {a b : DeliveryRow} {cid d : String} {sh : Shift}
    (ha : keyMatch a cid d sh = true) (hb : keyMatch b cid d sh = true) :
    sameKey a b := by
  rcases (keyMatch_iff a cid d sh).mp ha with ⟨h1, h2, h3⟩
  rcases (keyMatch_iff b cid d sh).mp hb with ⟨g1, g2, g3⟩
  exact ⟨h1.trans g1.symm, h2.trans g2.symm, h3.trans g3.symm⟩

theorem keyMatch_congr {a b : DeliveryRow} (h : sameKey a b)
    (cid d : String) (sh : Shift) :
    keyMatch a cid d sh = keyMatch b cid d sh := by
  rcases h with ⟨h1, h2, h3⟩
  simp [keyMatch, h1, h2, h3]

/-- Mapping a key-preserving function over the rows keeps `KeyUnique`. -/
theorem KeyUnique.map {rows : List DeliveryRow} (f : DeliveryRow → DeliveryRow)
    (hf : ∀ x, sameKey (f x) x) (h : KeyUnique rows) :
    KeyUnique (rows.map f) := by
  refine List.pairwise_map.mpr ?_
  refine h.imp (fun hab hc => hab ?_)
  rename_i a b
  rcases hf a with ⟨a1, a2, a3⟩
  rcases hf b with ⟨b1, b2, b3⟩
  rcases hc with ⟨c1, c2, c3⟩
  exact ⟨a1.symm.trans (c1.trans b1), a2.symm.trans (c2.trans b2),
    a3.symm.trans (c3.trans b3)⟩

/-- `findDelivery?` misses exactly when no row matches the key. -/
theorem findDelivery?_eq_none {rows : List DeliveryRow} {cid d : String}
    {sh : Shift} :
    findDelivery? rows cid d sh = none ↔
      ∀ r ∈ rows, keyMatch r cid d sh = false := by
  unfold findDelivery?
  rw [List.find?_eq_none]
  constructor
  · intro h r hr
    have := h r hr
    simpa using this
  · intro h r hr
    simp [h r hr]

/-- With unique keys, the rows matching a found key filter down to exactly
the found row. -/
theorem filter_eq_single_of_find? {rows : List DeliveryRow} {cid d : String}
    {sh : Shift} {r₀ : DeliveryRow} (hk : KeyUnique rows)
    (hf : rows.find? (fun r => keyMatch r cid d sh) = some r₀) :
    rows.filter (fun r => keyMatch r cid d sh) = [r₀] := by
  induction rows with
  | nil => simp at hf
  | cons a l ih =>
    by_cases pa : keyMatch a cid d sh = true
    · rw [List.find?_cons_of_pos l pa] at hf
      injection hf with hf
      subst hf
      rw [List.filter_cons_of_pos (p := fun r => keyMatch r cid d sh) pa]
      have hnil : l.filter (fun r => keyMatch r cid d sh) = [] := by
        rw [List.filter_eq_nil_iff]
        intro e he hc
        exact (List.pairwise_cons.mp hk).1 e he (sameKey_of_keyMatch pa hc)
      rw [hnil]
    · rw [List.find?_cons_of_neg l pa] at hf
      rw [List.filter_cons_of_neg (p := fun r => keyMatch r cid d sh) pa]
      exact ih (List.pairwise_cons.mp hk).2 hf

/-- The update functions used by upsert and autofill preserve the row key. -/
theorem updateById_sameKey (rows : List DeliveryRow) (i : Nat)
    (f : DeliveryRow → DeliveryRow) (hf : ∀ x, sameKey (f x) x)
    (hk : KeyUnique rows) : KeyUnique (updateById rows i f) := by
  refine KeyUnique.map _ (fun x => ?_) hk
  by_cases hx : (x.id == i) = true
  · simpa [updateById, hx] using hf x
  · simp [updateById, hx]
    exact ⟨rfl, rfl, rfl⟩

theorem applyUpsert_customers (st : Store) (c : Customer) (d : String)
    (sh : Shift) (amt : ℚ) (dl : Bool) (nt : String) (now : Nat) :
    (applyUpsert st c d sh amt dl nt now).customers = st.customers := by
  unfold applyUpsert
  cases findDelivery? st.deliveries c.id d sh <;> rfl

theorem applyUpsert_stocks (st : Store) (c : Customer) (d : String)
    (sh : Shift) (amt : ℚ) (dl : Bool) (nt : String) (now : Nat) :
    (applyUpsert st c d sh amt dl nt now).stocks = st.stocks := by
  unfold applyUpsert
  cases findDelivery? st.deliveries c.id d sh <;> rfl

/-- The upsert body preserves key uniqueness: the update branch maps a
key-preserving function, the create branch appends a key that no row holds. -/
theorem applyUpsert_keyUnique (st : Store) (c : Customer) (d : String)
    (sh : Shift) (amt : ℚ) (dl : Bool) (nt : String) (now : Nat)
    (hk : KeyUnique st.deliveries) :
    KeyUnique (applyUpsert st c d sh amt dl nt now).deliveries := by
  unfold applyUpsert
  cases hfind : findDelivery? st.deliveries c.id d sh with
  | some r =>
    exact updateById_sameKey _ _ _ (fun x => ⟨rfl, rfl, rfl⟩) hk
  | none =>
    refine List.pairwise_append.mpr ⟨hk, List.pairwise_singleton _ _, ?_⟩
    intro a ha b hb hc
    have hmiss := findDelivery?_eq_none.mp hfind a ha
    rcases List.mem_singleton.mp hb with rfl
    rcases hc with ⟨h1, h2, h3⟩
    have hkm : keyMatch a c.id d sh = true :=
      (keyMatch_iff a c.id d sh).mpr
        ⟨by simpa using h1, by simpa using h2, by simpa using h3⟩
    exact absurd hkm (by simp [hmiss])

theorem bulkStep_customers (d : String) (sh : Shift) (now : Nat) (st : Store)
    (e : BulkEntry) : (bulkStep d sh now st e).customers = st.customers := by
  unfold bulkStep
  cases hc : st.customers.find? (fun c => c.id == e.customerId) with
  | none => rfl
  | some c => exact applyUpsert_customers st c d sh e.actualAmount e.delivered e.notes now

theorem bulkStep_keyUnique (d : String) (sh : Shift) (now : Nat) (st : Store)
    (e : BulkEntry) (hk : KeyUnique st.deliveries) :
    KeyUnique (bulkStep d sh now st e).deliveries := by
  unfold bulkStep
  cases hc : st.customers.find? (fun c => c.id == e.customerId) with
  | none => exact hk
  | some c => exact applyUpsert_keyUnique st c d sh e.actualAmount e.delivered e.notes now hk

theorem bulk_foldl_keyUnique (d : String) (sh : Shift) (now : Nat)
    (es : List BulkEntry) (st : Store) (hk : KeyUnique st.deliveries) :
    KeyUnique (es.foldl (bulkStep d sh now) st).deliveries := by
  induction es generalizing st with
  | nil => exact hk
  | cons e es ih => exact ih _ (bulkStep_keyUnique d sh now st e hk)

theorem autofillStep_keyUnique (d : String) (sh : Shift) (now : Nat)
    (acc : Store × Nat) (c : Customer) (hk : KeyUnique acc.1.deliveries) :
    KeyUnique (autofillStep d sh now acc c).1.deliveries := by
  unfold autofillStep
  by_cases hq : shiftQuota c sh ≤ 0
  · simpa [hq] using hk
  · simp only [hq, if_false]
    cases hfind : findDelivery? acc.1.deliveries c.id d sh with
    | some r =>
      exact updateById_sameKey _ _ _ (fun x => ⟨rfl, rfl, rfl⟩) hk
    | none =>
      refine List.pairwise_append.mpr ⟨hk, List.pairwise_singleton _ _, ?_⟩
      intro a ha b hb hc
      have hmiss := findDelivery?_eq_none.mp hfind a ha
      rcases List.mem_singleton.mp hb with rfl
      rcases hc with ⟨h1, h2, h3⟩
      have hkm : keyMatch a c.id d sh = true :=
        (keyMatch_iff a c.id d sh).mpr
          ⟨by simpa using h1, by simpa using h2, by simpa using h3⟩
      exact absurd hkm (by simp [hmiss])

theorem autofill_foldl_keyUnique (d : String) (sh : Shift) (now : Nat)
    (cs : List Customer) (acc : Store × Nat) (hk : KeyUnique acc.1.deliveries) :
    KeyUnique (cs.foldl (autofillStep d sh now) acc).1.deliveries := by
  induction cs generalizing acc with
  | nil => exact hk
  | cons c cs ih => exact ih _ (autofillStep_keyUnique d sh now acc c hk)

theorem clearDeliveries_keyUnique (s : Store) (d : String) (sh : Shift)
    (now : Nat) (hk : KeyUnique s.deliveries) :
    KeyUnique (clearDeliveries s d sh now).deliveries := by
  refine KeyUnique.map _ (fun x => ?_) hk
  by_cases hx : (x.date == d && x.shift == sh) = true
  · simp [hx]
    exact ⟨rfl, rfl, rfl⟩
  · simp [hx]
    exact ⟨rfl, rfl, rfl⟩

/-- A successful upsert keeps keys unique, keeps the customer table, and
leaves exactly one row holding the written key, carrying the written
actualAmount, delivered flag and notes. -/
theorem upsert_key_effect (st : Store) (cid d : String) (sh : Shift)
    (amt : ℚ) (dl : Bool) (nt : String) (now : Nat) (s1 : Store)
    (hk : KeyUnique st.deliveries)
    (h : upsertDelivery st cid d sh amt dl nt now = some s1) :
    KeyUnique s1.deliveries ∧ s1.customers = st.customers ∧
    ∃ r, s1.deliveries.filter (fun x => keyMatch x cid d sh) = [r] ∧
      r.actualAmount = amt ∧ r.delivered = dl ∧ r.notes = nt := by
  unfold upsertDelivery at h
  cases hcc : st.customers.find? (fun c => c.id == cid) with
  | none => rw [hcc] at h; exact absurd h (by simp)
  | some c =>
    rw [hcc] at h
    injection h with h
    subst h
    have hcid : c.id = cid := by simpa using List.find?_some hcc
    subst hcid
    refine ⟨applyUpsert_keyUnique st c d sh amt dl nt now hk,
      applyUpsert_customers st c d sh amt dl nt now, ?_⟩
    unfold applyUpsert
    cases hfind : findDelivery? st.deliveries c.id d sh with
    | some r =>
      refine ⟨{ r with actualAmount := amt, delivered := dl, notes := nt, updatedAt := now }, ?_, rfl, rfl, rfl⟩
      show (updateById st.deliveries r.id _).filter _ = _
      unfold updateById
      rw [List.filter_map]
      have hcong : st.deliveries.filter
          ((fun x => keyMatch x c.id d sh) ∘
            (fun x => if x.id == r.id then { x with actualAmount := amt, delivered := dl, notes := nt, updatedAt := now } else x))
          = st.deliveries.filter (fun x => keyMatch x c.id d sh) := by
        refine List.filter_congr (fun x hx => ?_)
        by_cases hxr : (x.id == r.id) = true
        · simp only [Function.comp, hxr, if_pos]
          simp [keyMatch]
        · simp only [Function.comp, hxr]
          simp
      rw [hcong, filter_eq_single_of_find? hk hfind]
      simp
    | none =>
      refine ⟨{ id := st.nextId, customerId := c.id, date := d, shift := sh, quota := shiftQuota c sh, actualAmount := amt, delivered := dl, notes := nt, createdAt := now, updatedAt := now }, ?_, rfl, rfl, rfl⟩
      show (st.deliveries ++ [_]).filter _ = _
      rw [List.filter_append]
      have h1 : st.deliveries.filter (fun x => keyMatch x c.id d sh) = [] := by
        rw [List.filter_eq_nil_iff]
        intro a ha
        simp [findDelivery?_eq_none.mp hfind a ha]
      rw [h1]
      simp [keyMatch]

/-- C4: starting from a store whose delivery keys are unique (the database
enforces this with the unique index on (customerId, date, shift)), upsert,
bulkUpdate, autofill and clear all preserve the uniqueness invariant, and
upserting the same key twice leaves exactly one row for that key, holding the
latest actualAmount. -/
theorem delivery_key_uniqueness (s : Store) (hk : KeyUnique s.deliveries) :
    (∀ cid d sh amt dl nt now s1,
      upsertDelivery s cid d sh amt dl nt now = some s1 → KeyUnique s1.deliveries)
    ∧ (∀ d sh es now, KeyUnique (bulkUpdateDeliveries s d sh es now).deliveries)
    ∧ (∀ d sh now, KeyUnique (autofillDeliveries s d sh now).1.deliveries)
    ∧ (∀ d sh now, KeyUnique (clearDeliveries s d sh now).deliveries)
    ∧ ∀ cid d sh a1 a2 dl1 dl2 nt1 nt2 n1 n2 s1 s2,
        upsertDelivery s cid d sh a1 dl1 nt1 n1 = some s1 →
        upsertDelivery s1 cid d sh a2 dl2 nt2 n2 = some s2 →
        (s2.deliveries.filter (fun x => keyMatch x cid d sh)).map
          (fun x => x.actualAmount) = [a2] := by
  refine ⟨?_, ?_, ?_, ?_, ?_⟩
  · intro cid d sh amt dl nt now s1 h
    exact (upsert_key_effect s cid d sh amt dl nt now s1 hk h).1
  · intro d sh es now
    exact bulk_foldl_keyUnique d sh now es s hk
  · intro d sh now
    exact autofill_foldl_keyUnique d sh now _ (s, 0) hk
  · intro d sh now
    exact clearDeliveries_keyUnique s d sh now hk
  · intro cid d sh a1 a2 dl1 dl2 nt1 nt2 n1 n2 s1 s2 h1 h2
    have e1 := upsert_key_effect s cid d sh a1 dl1 nt1 n1 s1 hk h1
    have e2 := upsert_key_effect s1 cid d sh a2 dl2 nt2 n2 s2 e1.1 h2
    rcases e2.2.2 with ⟨r, hr, hamt, h3, h4⟩
    rw [hr, List.map_singleton, hamt]

/-- Pointwise relation between a list and its image under a map. -/
theorem forallTwo_map_self {α : Type} (g : α → α) (R : α → α → Prop)
    (l : List α) (h : ∀ x ∈ l, R x (g x)) : List.Forall₂ R l (l.map g) := by
  induction l with
  | nil => exact List.Forall₂.nil
  | cons a t ih =>
    exact List.Forall₂.cons (h a (by simp))
      (ih (fun x hx => h x (List.mem_cons_of_mem a hx)))

/-- C10: an upsert that hits an existing row only rewrites actualAmount,
delivered, notes and updatedAt on that row; its quota snapshot, customerId,
date, shift and createdAt — and every other row — keep their previous
values, and no row is added or removed. -/
theorem upsert_update_frame (st : Store) (cid d : String) (sh : Shift)
    (amt : ℚ) (dl : Bool) (nt : String) (now : Nat) (r : DeliveryRow) (s1 : Store)
    (hfound : findDelivery? st.deliveries cid d sh = some r)
    (h : upsertDelivery st cid d sh amt dl nt now = some s1) :
    s1.customers = st.customers ∧ s1.nextId = st.nextId ∧ s1.stocks = st.stocks
    ∧ s1.deliveries.length = st.deliveries.length
    ∧ List.Forall₂ (fun old nw =>
        (nw.customerId = old.customerId ∧ nw.date = old.date
          ∧ nw.shift = old.shift ∧ nw.quota = old.quota
          ∧ nw.createdAt = old.createdAt)
        ∧ (old.id = r.id → nw.actualAmount = amt ∧ nw.delivered = dl
            ∧ nw.notes = nt ∧ nw.updatedAt = now)
        ∧ (old.id ≠ r.id → nw = old)) st.deliveries s1.deliveries := by
  unfold upsertDelivery at h
  cases hcc : st.customers.find? (fun c => c.id == cid) with
  | none => rw [hcc] at h; exact absurd h (by simp)
  | some c =>
    rw [hcc] at h
    injection h with h
    have hcid : c.id = cid := by simpa using List.find?_some hcc
    rw [← h]
    unfold applyUpsert
    rw [hcid, hfound]
    refine ⟨rfl, rfl, rfl, by simp [updateById], ?_⟩
    show List.Forall₂ _ st.deliveries (updateById st.deliveries r.id _)
    unfold updateById
    refine forallTwo_map_self _ _ _ (fun x hx => ?_)
    by_cases hid : (x.id == r.id) = true
    · rw [if_pos hid]
      refine ⟨⟨rfl, rfl, rfl, rfl, rfl⟩, fun h5 => ⟨rfl, rfl, rfl, rfl⟩,
        fun hne => absurd (by simpa using hid) hne⟩
    · rw [if_neg hid]
      refine ⟨⟨rfl, rfl, rfl, rfl, rfl⟩,
        fun h5 => absurd h5 (by simpa using hid), fun hne => rfl⟩

/-- Witness for C10: upserting the sample store's existing morning row keeps
the table size and the customer list. -/
theorem upsert_update_frame_w :
    ∃ s1, upsertDelivery sampleStore "c1" "2025-03-01" Shift.morning 3 true "ok" 5 = some s1
      ∧ s1.deliveries.length = sampleStore.deliveries.length
      ∧ s1.customers = sampleStore.customers := by
  refine ⟨_, rfl, ?_, ?_⟩
  · exact (upsert_update_frame sampleStore "c1" "2025-03-01" Shift.morning 3 true
      "ok" 5 sampleRow _ rfl rfl).2.2.2.1
  · exact (upsert_update_frame sampleStore "c1" "2025-03-01" Shift.morning 3 true
      "ok" 5 sampleRow _ rfl rfl).1

/-- Witness for C4: the sample store satisfies the invariant and keeps it
through clear. -/
theorem delivery_key_uniqueness_w :
    KeyUnique (clearDeliveries sampleStore "2025-03-01" Shift.morning 7).deliveries := by
  exact (delivery_key_uniqueness sampleStore
    (by simp [sampleStore])).2.2.2.1 "2025-03-01" Shift.morning 7

/-- Skipped entries leave the transaction fold unchanged, so the whole bulk
update equals the fold over only the entries whose customer exists. -/
theorem bulk_filter_aux (d : String) (sh : Shift) (now : Nat)
    (es : List BulkEntry) (st : Store) (cs : List Customer)
    (hcs : st.customers = cs) :
    es.foldl (bulkStep d sh now) st
      = (es.filter (fun e =>
          (cs.find? (fun c => c.id == e.customerId)).isSome)).foldl
        (bulkStep d sh now) st := by
  induction es generalizing st with
  | nil => rfl
  | cons e es ih =>
    rw [List.foldl_cons, List.filter_cons]
    by_cases hf : ((cs.find? (fun c => c.id == e.customerId)).isSome) = true
    · rw [if_pos hf, List.foldl_cons]
      exact ih _ (by rw [bulkStep_customers, hcs])
    · rw [if_neg hf]
      have hnone : st.customers.find? (fun c => c.id == e.customerId) = none := by
        rw [hcs]
        exact Option.not_isSome_iff_eq_none.mp hf
      have hskip : bulkStep d sh now st e = st := by
        unfold bulkStep
        rw [hnone]
      rw [hskip]
      exact ih st hcs

/-- C8: a bulk update entry whose customerId matches no customer leaves the
state untouched (and the operation still succeeds — the fold is total), every
entry whose customer exists is applied with exactly the upsert semantics, and
the whole batch is one fold over the store (the transaction): the result
equals the bulk update of just the existing-customer entries. -/
theorem bulk_skip_and_upsert (s : Store) (d : String) (sh : Shift)
    (es : List BulkEntry) (now : Nat) :
    (∀ st (e : BulkEntry),
      st.customers.find? (fun c => c.id == e.customerId) = none →
      bulkStep d sh now st e = st)
    ∧ (∀ st (e : BulkEntry) c,
      st.customers.find? (fun c => c.id == e.customerId) = some c →
      upsertDelivery st e.customerId d sh e.actualAmount e.delivered e.notes now
        = some (bulkStep d sh now st e))
    ∧ bulkUpdateDeliveries s d sh es now
        = bulkUpdateDeliveries s d sh
          (es.filter (fun e =>
            (s.customers.find? (fun c => c.id == e.customerId)).isSome)) now := by
  refine ⟨?_, ?_, ?_⟩
  · intro st e h
    unfold bulkStep
    rw [h]
  · intro st e c h
    unfold bulkStep upsertDelivery
    rw [h]
  · exact bulk_filter_aux d sh now es s s.customers rfl

/-- A bulk entry referencing no existing customer. -/
def ghostEntry : BulkEntry :=
  { customerId := "ghost", actualAmount := 4, delivered := true, notes := "" }

/-- A bulk entry for the sample customer. -/
def sampleEntry : BulkEntry :=
  { customerId := "c1", actualAmount := 3, delivered := true, notes := "" }

/-- Witness for C8: the ghost entry is skipped on the sample store, and the
sample entry is applied with upsert semantics. -/
theorem bulk_skip_and_upsert_w :
    bulkStep "2025-03-01" Shift.morning 5 sampleStore ghostEntry = sampleStore
    ∧ upsertDelivery sampleStore "c1" "2025-03-01" Shift.morning 3 true "" 5
      = some (bulkStep "2025-03-01" Shift.morning 5 sampleStore sampleEntry) := by
  constructor
  · exact (bulk_skip_and_upsert sampleStore "2025-03-01" Shift.morning [] 5).1
      sampleStore ghostEntry rfl
  · exact (bulk_skip_and_upsert sampleStore "2025-03-01" Shift.morning [] 5).2.1
      sampleStore sampleEntry sampleCustomer rfl

/-! ### Autofill normal form

The autofill loop over the active customers is characterised by a normal
form: every existing row whose owner is an active customer with positive
per-shift quota and whose key matches the requested (date, shift) is
rewritten to (quota, delivered = true), and one fresh row per active
positive-quota customer without an existing row is appended, ids drawn from
the counter. -/

/-- The autofill processing test: positive per-shift quota
(the loop skips `quota <= 0`). -/
def posQuota (sh : Shift) (c : Customer) : Bool :=
  decide (0 < shiftQuota c sh)

/-- The rewrite autofill applies to an existing row once the customers in
`cs` have been processed: if some processed customer with positive quota owns
the row's (date, shift) key, the row carries that quota and delivered=true. -/
def touchBy (cs : List Customer) (d : String) (sh : Shift) (now : Nat)
    (r : DeliveryRow) : DeliveryRow :=
  match cs.find? (fun c => posQuota sh c && keyMatch r c.id d sh) with
  | some c => { r with actualAmount := shiftQuota c sh, delivered := true, updatedAt := now }
  | none => r

/-- The processed customers whose (date, shift) row is absent from `rows`
and whose quota is positive: autofill creates rows for exactly these. -/
def missingOf (rows : List DeliveryRow) (cs : List Customer) (d : String)
    (sh : Shift) : List Customer :=
  cs.filter (fun c => posQuota sh c && (findDelivery? rows c.id d sh).isNone)

/-- The rows autofill creates for the missing customers, with ids drawn
consecutively from `base`. -/
def newRowsOf (d : String) (sh : Shift) (now : Nat) :
    List Customer → Nat → List DeliveryRow
  | [], _ => []
  | c :: cs, base =>
    { id := base, customerId := c.id, date := d, shift := sh,
      quota := shiftQuota c sh, actualAmount := shiftQuota c sh,
      delivered := true, notes := "", createdAt := now, updatedAt := now }
      :: newRowsOf d sh now cs (base + 1)

/-- Store well-formedness, as the database schema guarantees it: delivery
primary keys unique and below the id counter, customer primary keys unique,
and the delivery key triple unique. -/
structure WF (s : Store) : Prop where
  didsNodup : (s.deliveries.map (fun r => r.id)).Nodup
  idsLt : ∀ r ∈ s.deliveries, r.id < s.nextId
  cidsNodup : (s.customers.map (fun c => c.id)).Nodup
  keys : KeyUnique s.deliveries

/-- The normal-form state after autofill has processed the customers `cs`. -/
def afState (s : Store) (cs : List Customer) (d : String) (sh : Shift)
    (now : Nat) : Store :=
  { customers := s.customers
    deliveries := s.deliveries.map (touchBy cs d sh now) ++
      newRowsOf d sh now (missingOf s.deliveries cs d sh) s.nextId
    stocks := s.stocks
    nextId := s.nextId + (missingOf s.deliveries cs d sh).length }

/-- The normal-form accumulator (state and count) after processing `cs`. -/
def afAcc (s : Store) (cs : List Customer) (d : String) (sh : Shift)
    (now : Nat) : Store × Nat :=
  (afState s cs d sh now, (cs.filter (posQuota sh)).length)

theorem touchBy_nil (d : String) (sh : Shift) (now : Nat) (r : DeliveryRow) :
    touchBy [] d sh now r = r := rfl

theorem touchBy_id (cs : List Customer) (d : String) (sh : Shift) (now : Nat)
    (r : DeliveryRow) : (touchBy cs d sh now r).id = r.id := by
  unfold touchBy
  cases cs.find? (fun c => posQuota sh c && keyMatch r c.id d sh) <;> rfl

theorem touchBy_keyMatch (cs : List Customer) (d : String) (sh : Shift)
    (now : Nat) (r : DeliveryRow) (cid e : String) (sh2 : Shift) :
    keyMatch (touchBy cs d sh now r) cid e sh2 = keyMatch r cid e sh2 := by
  unfold touchBy
  cases cs.find? (fun c => posQuota sh c && keyMatch r c.id d sh) <;> rfl

theorem touchBy_append_of_none (cs1 cs2 : List Customer) (d : String)
    (sh : Shift) (now : Nat) (r : DeliveryRow)
    (h : cs1.find? (fun c => posQuota sh c && keyMatch r c.id d sh) = none) :
    touchBy (cs1 ++ cs2) d sh now r = touchBy cs2 d sh now r := by
  unfold touchBy
  rw [List.find?_append, h, Option.none_or]

theorem touchBy_append_of_some (cs1 cs2 : List Customer) (d : String)
    (sh : Shift) (now : Nat) (r : DeliveryRow) (c : Customer)
    (h : cs1.find? (fun c => posQuota sh c && keyMatch r c.id d sh) = some c) :
    touchBy (cs1 ++ cs2) d sh now r = touchBy cs1 d sh now r := by
  unfold touchBy
  rw [List.find?_append, h]
  rfl

/-- Appending a customer that does not own the row's key (or has no positive
quota) does not change the touch. -/
theorem touchBy_append_single_neg (cs : List Customer) (c : Customer)
    (d : String) (sh : Shift) (now : Nat) (r : DeliveryRow)
    (h : (posQuota sh c && keyMatch r c.id d sh) = false) :
    touchBy (cs ++ [c]) d sh now r = touchBy cs d sh now r := by
  cases hf : cs.find? (fun c => posQuota sh c && keyMatch r c.id d sh) with
  | some c1 => exact touchBy_append_of_some cs [c] d sh now r c1 hf
  | none =>
    rw [touchBy_append_of_none cs [c] d sh now r hf]
    show touchBy [c] d sh now r = touchBy cs d sh now r
    unfold touchBy
    rw [hf]
    have h1 : List.find? (fun c => posQuota sh c && keyMatch r c.id d sh) [c] = none := by
      rw [List.find?_cons, h]
      rfl
    rw [h1]

theorem newRowsOf_append (d : String) (sh : Shift) (now : Nat)
    (cs1 cs2 : List Customer) (base : Nat) :
    newRowsOf d sh now (cs1 ++ cs2) base =
      newRowsOf d sh now cs1 base ++ newRowsOf d sh now cs2 (base + cs1.length) := by
  induction cs1 generalizing base with
  | nil => simp [newRowsOf]
  | cons c cs ih =>
    simp only [List.cons_append, newRowsOf, List.append_eq, ih, List.length_cons]
    rw [(by omega : base + 1 + cs.length = base + (cs.length + 1))]

theorem newRowsOf_ids (d : String) (sh : Shift) (now : Nat)
    (cs : List Customer) (base : Nat) :
    ∀ r ∈ newRowsOf d sh now cs base, base ≤ r.id ∧ r.id < base + cs.length := by
  induction cs generalizing base with
  | nil => simp [newRowsOf]
  | cons c cs ih =>
    intro r hr
    rcases List.mem_cons.mp hr with rfl | hr'
    · refine ⟨le_refl _, ?_⟩
      show base < base + (cs.length + 1)
      omega
    · rcases ih (base + 1) r hr' with ⟨h1a, h1b⟩
      refine ⟨by omega, ?_⟩
      show r.id < base + (cs.length + 1)
      omega

theorem newRowsOf_customerId (d : String) (sh : Shift) (now : Nat)
    (cs : List Customer) (base : Nat) :
    ∀ r ∈ newRowsOf d sh now cs base, ∃ c ∈ cs, r.customerId = c.id := by
  induction cs generalizing base with
  | nil => simp [newRowsOf]
  | cons c cs ih =>
    intro r hr
    rcases List.mem_cons.mp hr with rfl | hr'
    · exact ⟨c, List.mem_cons_self c cs, rfl⟩
    · rcases ih (base + 1) r hr' with ⟨c1, hc1, he⟩
      exact ⟨c1, List.mem_cons_of_mem c hc1, he⟩

/-- Created rows never match the key of a customer outside their list. -/
theorem newRowsOf_find?_none (d : String) (sh : Shift) (now : Nat)
    (cs : List Customer) (base : Nat) (cid : String) (e : String) (sh2 : Shift)
    (h : ∀ c ∈ cs, c.id ≠ cid) :
    (newRowsOf d sh now cs base).find? (fun r => keyMatch r cid e sh2) = none := by
  rw [List.find?_eq_none]
  intro r hr
  rcases newRowsOf_customerId d sh now cs base r hr with ⟨c, hc, he⟩
  simp [keyMatch, he, h c hc]

/-- With unique keys, two rows of the table sharing a key are one row. -/
theorem eq_of_sameKey_of_keyUnique {l : List DeliveryRow} {x y : DeliveryRow}
    (hk : KeyUnique l) (hx : x ∈ l) (hy : y ∈ l) (h : sameKey x y) : x = y := by
  by_contra hne
  have hsymm : Symmetric (fun a b : DeliveryRow => ¬ sameKey a b) := by
    intro a b hab hc
    exact hab ⟨hc.1.symm, hc.2.1.symm, hc.2.2.symm⟩
  exact (hk.forall hsymm hx hy hne) h

/-- A key search commutes with a key-preserving rewrite of the table. -/
theorem find?_map_keys (g : DeliveryRow → DeliveryRow) (cid e : String)
    (sh2 : Shift) (l : List DeliveryRow)
    (hg : ∀ x, keyMatch (g x) cid e sh2 = keyMatch x cid e sh2) :
    (l.map g).find? (fun r => keyMatch r cid e sh2)
      = (l.find? (fun r => keyMatch r cid e sh2)).map g := by
  rw [List.find?_map]
  have hpf : ((fun r => keyMatch r cid e sh2) ∘ g) = fun r => keyMatch r cid e sh2 :=
    funext (fun r => hg r)
  rw [hpf]

theorem updateById_append (l1 l2 : List DeliveryRow) (i : Nat)
    (f : DeliveryRow → DeliveryRow) :
    updateById (l1 ++ l2) i f = updateById l1 i f ++ updateById l2 i f := by
  unfold updateById
  exact List.map_append _ l1 l2

theorem updateById_of_not_mem (l : List DeliveryRow) (i : Nat)
    (f : DeliveryRow → DeliveryRow) (h : ∀ r ∈ l, r.id ≠ i) :
    updateById l i f = l := by
  unfold updateById
  have := List.map_congr_left (l := l)
    (f := fun r => if r.id == i then f r else r) (g := id)
    (fun r hr => by simp [h r hr])
  simpa using this

/-- The ids of the active-customer list are nodup in a well-formed store. -/
theorem active_ids_nodup (s : Store) (hwf : WF s) :
    ((s.customers.filter (fun c => c.isActive)).map (fun c => c.id)).Nodup :=
  List.Nodup.sublist ((List.filter_sublist s.customers).map (fun c => c.id))
    hwf.cidsNodup

/-- In a well-formed store, a not-yet-processed active customer's id differs
from every processed customer's id. -/
theorem done_ids_ne (s : Store) (hwf : WF s) (done : List Customer)
    (c : Customer) (rest : List Customer)
    (hA : s.customers.filter (fun x => x.isActive) = done ++ c :: rest) :
    ∀ c' ∈ done, c'.id ≠ c.id := by
  have hnd := active_ids_nodup s hwf
  rw [hA, List.map_append, List.map_cons] at hnd
  rcases List.nodup_append.mp hnd with ⟨h1, h2, h3⟩
  intro c' hc' he
  exact h3 (List.mem_map_of_mem _ hc') (he ▸ List.mem_cons_self _ _)

/-- A row whose key none of `cs` owns is untouched. -/
theorem touchBy_eq_self_of_none (cs : List Customer) (d : String) (sh : Shift)
    (now : Nat) (r : DeliveryRow)
    (h : cs.find? (fun c => posQuota sh c && keyMatch r c.id d sh) = none) :
    touchBy cs d sh now r = r := by
  unfold touchBy
  rw [h]

/-- One autofill iteration advances the normal form by one customer. -/
theorem autofillStep_nf (d : String) (sh : Shift) (now : Nat) (s : Store)
    (hwf : WF s) (done : List Customer) (c : Customer) (rest : List Customer)
    (hA : s.customers.filter (fun x => x.isActive) = done ++ c :: rest) :
    autofillStep d sh now (afAcc s done d sh now) c
      = afAcc s (done ++ [c]) d sh now := by
  have hcdone : ∀ c' ∈ done, c'.id ≠ c.id := done_ids_ne s hwf done c rest hA
  by_cases hq : shiftQuota c sh ≤ 0
  · have hpos : posQuota sh c = false := by
      unfold posQuota
      rw [decide_eq_false_iff_not]
      exact not_lt.mpr hq
    have hstep0 : autofillStep d sh now (afAcc s done d sh now) c
        = afAcc s done d sh now := by
      unfold autofillStep
      rw [if_pos hq]
    rw [hstep0]
    unfold afAcc afState
    have h1 : s.deliveries.map (touchBy (done ++ [c]) d sh now)
        = s.deliveries.map (touchBy done d sh now) :=
      List.map_congr_left (fun x hx =>
        touchBy_append_single_neg done c d sh now x (by simp [hpos]))
    have h2 : missingOf s.deliveries (done ++ [c]) d sh
        = missingOf s.deliveries done d sh := by
      unfold missingOf
      rw [List.filter_append]
      simp [hpos]
    have h3 : (done ++ [c]).filter (posQuota sh) = done.filter (posQuota sh) := by
      rw [List.filter_append]
      simp [hpos]
    rw [h1, h2, h3]
  · have hq' : 0 < shiftQuota c sh := not_le.mp hq
    have hpos : posQuota sh c = true := by
      unfold posQuota
      rw [decide_eq_true_eq]
      exact hq'
    have hfind_map : (afState s done d sh now).deliveries.find?
          (fun r => keyMatch r c.id d sh)
        = (s.deliveries.find? (fun r => keyMatch r c.id d sh)).map
            (touchBy done d sh now) := by
      show ((s.deliveries.map (touchBy done d sh now)) ++
        newRowsOf d sh now (missingOf s.deliveries done d sh) s.nextId).find? _ = _
      rw [List.find?_append,
        newRowsOf_find?_none d sh now (missingOf s.deliveries done d sh)
          s.nextId c.id d sh
          (fun c' hc' => hcdone c' (List.mem_of_mem_filter hc')),
        Option.or_none]
      exact find?_map_keys _ c.id d sh s.deliveries
        (fun x => touchBy_keyMatch done d sh now x c.id d sh)
    cases hr0 : s.deliveries.find? (fun r => keyMatch r c.id d sh) with
    | some r₀ =>
      have hr0mem : r₀ ∈ s.deliveries := List.mem_of_find?_eq_some hr0
      have hr0key : keyMatch r₀ c.id d sh = true := by
        simpa using List.find?_some hr0
      have hdone_none_r0 : done.find?
          (fun x => posQuota sh x && keyMatch r₀ x.id d sh) = none := by
        rw [List.find?_eq_none]
        intro c' hc' hpred
        have hkm : keyMatch r₀ c'.id d sh = true := (Bool.and_eq_true_iff.mp hpred).2
        have h1 : r₀.customerId = c'.id := ((keyMatch_iff _ _ _ _).mp hkm).1
        have h2 : r₀.customerId = c.id := ((keyMatch_iff _ _ _ _).mp hr0key).1
        exact hcdone c' hc' (h1 ▸ h2)
      have htr0 : touchBy done d sh now r₀ = r₀ :=
        touchBy_eq_self_of_none done d sh now r₀ hdone_none_r0
      have hstep1 : autofillStep d sh now (afAcc s done d sh now) c
          = ({ afState s done d sh now with
               deliveries := updateById (afState s done d sh now).deliveries r₀.id
                 (fun x => { x with actualAmount := shiftQuota c sh, delivered := true, updatedAt := now }) },
             (done.filter (posQuota sh)).length + 1) := by
        unfold autofillStep
        rw [if_neg hq]
        have hsc : findDelivery? (afAcc s done d sh now).1.deliveries c.id d sh
            = some r₀ := by
          unfold findDelivery?
          show (afState s done d sh now).deliveries.find? _ = _
          rw [hfind_map, hr0]
          simp [htr0]
        rw [hsc]
        rfl
      rw [hstep1]
      have hupd : updateById (afState s done d sh now).deliveries r₀.id
            (fun x => { x with actualAmount := shiftQuota c sh, delivered := true, updatedAt := now })
          = s.deliveries.map (touchBy (done ++ [c]) d sh now) ++
            newRowsOf d sh now (missingOf s.deliveries done d sh) s.nextId := by
        show updateById (s.deliveries.map (touchBy done d sh now) ++
          newRowsOf d sh now (missingOf s.deliveries done d sh) s.nextId) _ _ = _
        rw [updateById_append]
        have hnew_id : updateById
            (newRowsOf d sh now (missingOf s.deliveries done d sh) s.nextId) r₀.id
            (fun x => { x with actualAmount := shiftQuota c sh, delivered := true, updatedAt := now })
            = newRowsOf d sh now (missingOf s.deliveries done d sh) s.nextId := by
          refine updateById_of_not_mem _ _ _ (fun r hr he => ?_)
          have hge := (newRowsOf_ids d sh now _ s.nextId r hr).1
          have hlt := hwf.idsLt r₀ hr0mem
          omega
        rw [hnew_id]
        congr 1
        unfold updateById
        rw [List.map_map]
        refine List.map_congr_left (fun x hx => ?_)
        simp only [Function.comp_apply]
        by_cases hxid : (x.id == r₀.id) = true
        · have hxeq : x = r₀ :=
            List.inj_on_of_nodup_map hwf.didsNodup hx hr0mem (by simpa using hxid)
          rw [touchBy_id, hxeq, htr0, if_pos (by simp)]
          show _ = touchBy (done ++ [c]) d sh now r₀
          unfold touchBy
          rw [List.find?_append, hdone_none_r0, Option.none_or,
            List.find?_cons_of_pos _ (by simp [hpos, hr0key])]
        · rw [touchBy_id, if_neg (by simpa using hxid)]
          cases hf1 : done.find? (fun y => posQuota sh y && keyMatch x y.id d sh) with
          | some c1 => exact (touchBy_append_of_some done [c] d sh now x c1 hf1).symm
          | none =>
            rw [touchBy_append_of_none done [c] d sh now x hf1,
              touchBy_eq_self_of_none done d sh now x hf1]
            have hkm : keyMatch x c.id d sh = false := by
              by_contra hkx
              have hkx' : keyMatch x c.id d sh = true := by
                cases hx2 : keyMatch x c.id d sh
                · exact absurd hx2 hkx
                · rfl
              have : x = r₀ := eq_of_sameKey_of_keyUnique hwf.keys hx hr0mem
                (sameKey_of_keyMatch hkx' hr0key)
              exact absurd (by simp [this]) hxid
            refine (touchBy_eq_self_of_none [c] d sh now x ?_).symm
            rw [List.find?_eq_none]
            intro y hy
            rcases List.mem_singleton.mp hy with rfl
            simp [hkm]
      have hmiss1 : missingOf s.deliveries (done ++ [c]) d sh
          = missingOf s.deliveries done d sh := by
        unfold missingOf
        rw [List.filter_append]
        have : [c].filter (fun x => posQuota sh x && (findDelivery? s.deliveries x.id d sh).isNone) = [] := by
          rw [List.filter_cons]
          have hiso : (findDelivery? s.deliveries c.id d sh).isNone = false := by
            unfold findDelivery?
            rw [hr0]
            rfl
          rw [if_neg (by simp [hiso])]
          rfl
        rw [this, List.append_nil]
      have hcnt1 : ((done ++ [c]).filter (posQuota sh)).length
          = (done.filter (posQuota sh)).length + 1 := by
        rw [List.filter_append, List.length_append]
        simp [hpos]
      unfold afAcc afState
      rw [hmiss1, hcnt1]
      refine Prod.ext ?_ rfl
      show Store.mk _ _ _ _ = Store.mk _ _ _ _
      rw [Store.mk.injEq]
      exact ⟨rfl, by rw [← hupd]; rfl, rfl, rfl⟩
    | none =>
      have hnokey : ∀ x ∈ s.deliveries, keyMatch x c.id d sh = false := by
        intro x hx
        have := List.find?_eq_none.mp hr0 x hx
        cases hx2 : keyMatch x c.id d sh
        · rfl
        · exact absurd hx2 this
      have hstep2 : autofillStep d sh now (afAcc s done d sh now) c
          = ({ afState s done d sh now with
               deliveries := (afState s done d sh now).deliveries ++
                 [{ id := (afState s done d sh now).nextId, customerId := c.id,
                    date := d, shift := sh, quota := shiftQuota c sh,
                    actualAmount := shiftQuota c sh, delivered := true,
                    notes := "", createdAt := now, updatedAt := now }],
               nextId := (afState s done d sh now).nextId + 1 },
             (done.filter (posQuota sh)).length + 1) := by
        unfold autofillStep
        rw [if_neg hq]
        have hsc : findDelivery? (afAcc s done d sh now).1.deliveries c.id d sh
            = none := by
          unfold findDelivery?
          show (afState s done d sh now).deliveries.find? _ = _
          rw [hfind_map, hr0]
          rfl
        rw [hsc]
        rfl
      rw [hstep2]
      have hmap_same : s.deliveries.map (touchBy (done ++ [c]) d sh now)
          = s.deliveries.map (touchBy done d sh now) :=
        List.map_congr_left (fun x hx =>
          touchBy_append_single_neg done c d sh now x (by simp [hnokey x hx]))
      have hiso : (findDelivery? s.deliveries c.id d sh).isNone = true := by
        unfold findDelivery?
        rw [hr0]
        rfl
      have hmiss2 : missingOf s.deliveries (done ++ [c]) d sh
          = missingOf s.deliveries done d sh ++ [c] := by
        unfold missingOf
        rw [List.filter_append]
        congr 1
        rw [List.filter_cons]
        rw [if_pos (by simp [hpos, hiso])]
        rfl
      have hcnt2 : ((done ++ [c]).filter (posQuota sh)).length
          = (done.filter (posQuota sh)).length + 1 := by
        rw [List.filter_append, List.length_append]
        simp [hpos]
      unfold afAcc afState
      rw [hmiss2, hcnt2, hmap_same, newRowsOf_append]
      refine Prod.ext ?_ rfl
      show Store.mk _ _ _ _ = Store.mk _ _ _ _
      rw [Store.mk.injEq]
      refine ⟨rfl, ?_, rfl, by
        simp only [afState, List.length_append, List.length_cons, List.length_nil]
        omega⟩
      rw [← List.append_assoc]
      rfl

/-- The autofill fold, started from the normal form of a processed prefix,
lands on the normal form of the whole list. -/
theorem autofill_nf_aux (d : String) (sh : Shift) (now : Nat) (s : Store)
    (hwf : WF s) :
    ∀ rest done, s.customers.filter (fun x => x.isActive) = done ++ rest →
    rest.foldl (autofillStep d sh now) (afAcc s done d sh now)
      = afAcc s (done ++ rest) d sh now := by
  intro rest
  induction rest with
  | nil =>
    intro done h
    simp
  | cons c rest ih =>
    intro done hA
    rw [List.foldl_cons, autofillStep_nf d sh now s hwf done c rest hA]
    have heq : (done ++ [c]) ++ rest = done ++ c :: rest := by simp
    rw [ih (done ++ [c]) (by rw [hA, ← heq]), heq]

/-- `autofillDeliveries` equals its normal form on well-formed stores. -/
theorem autofill_nf (d : String) (sh : Shift) (now : Nat) (s : Store)
    (hwf : WF s) :
    autofillDeliveries s d sh now
      = afAcc s (s.customers.filter (fun x => x.isActive)) d sh now := by
  have h0 : afAcc s [] d sh now = (s, 0) := by
    have hmapid : s.deliveries.map (touchBy [] d sh now) = s.deliveries := by
      have := List.map_congr_left (l := s.deliveries)
        (f := touchBy [] d sh now) (g := id)
        (fun r hr => touchBy_nil d sh now r)
      simpa using this
    unfold afAcc afState missingOf
    rw [hmapid]
    simp [newRowsOf]
  have := autofill_nf_aux d sh now s hwf
    (s.customers.filter (fun x => x.isActive)) [] rfl
  rw [h0] at this
  exact this

theorem newRowsOf_length (d : String) (sh : Shift) (now : Nat)
    (cs : List Customer) (base : Nat) :
    (newRowsOf d sh now cs base).length = cs.length := by
  induction cs generalizing base with
  | nil => rfl
  | cons c cs ih => simp [newRowsOf, ih]

theorem newRowsOf_ids_nodup (d : String) (sh : Shift) (now : Nat)
    (cs : List Customer) (base : Nat) :
    ((newRowsOf d sh now cs base).map (fun r => r.id)).Nodup := by
  induction cs generalizing base with
  | nil => simp [newRowsOf]
  | cons c cs ih =>
    rw [newRowsOf, List.map_cons, List.nodup_cons]
    refine ⟨?_, ih (base + 1)⟩
    intro hmem
    rcases List.mem_map.mp hmem with ⟨r, hr, he⟩
    have := (newRowsOf_ids d sh now cs (base + 1) r hr).1
    simp at he
    omega

/-- Every created row is the canonical autofill row of one of the listed
customers. -/
theorem newRowsOf_struct (d : String) (sh : Shift) (now : Nat)
    (cs : List Customer) (base : Nat) :
    ∀ r ∈ newRowsOf d sh now cs base, ∃ c ∈ cs, ∃ i,
      r = { id := i, customerId := c.id, date := d, shift := sh,
            quota := shiftQuota c sh, actualAmount := shiftQuota c sh,
            delivered := true, notes := "", createdAt := now, updatedAt := now } := by
  induction cs generalizing base with
  | nil => simp [newRowsOf]
  | cons c cs ih =>
    intro r hr
    rcases List.mem_cons.mp hr with rfl | hr'
    · exact ⟨c, List.mem_cons_self c cs, base, rfl⟩
    · rcases ih (base + 1) r hr' with ⟨c1, hc1, i, he⟩
      exact ⟨c1, List.mem_cons_of_mem c hc1, i, he⟩

/-- When a listed customer owns the row's key (and ids are unique), the touch
writes that customer's quota. -/
theorem touchBy_of_owner (cs : List Customer) (d : String) (sh : Shift)
    (now : Nat) (r : DeliveryRow) (c : Customer)
    (hnd : (cs.map (fun x => x.id)).Nodup) (hc : c ∈ cs)
    (hposc : posQuota sh c = true) (hkey : keyMatch r c.id d sh = true) :
    touchBy cs d sh now r
      = { r with actualAmount := shiftQuota c sh, delivered := true, updatedAt := now } := by
  induction cs with
  | nil => cases hc
  | cons a cs ih =>
    rcases List.mem_cons.mp hc with rfl | hc'
    · unfold touchBy
      rw [List.find?_cons_of_pos _ (by simp [hposc, hkey])]
    · have hane : a.id ≠ c.id := by
        intro he
        have h2 : c.id ∈ cs.map (fun x => x.id) := List.mem_map_of_mem _ hc'
        rw [← he] at h2
        exact (List.nodup_cons.mp hnd).1 h2
      by_cases hpa : (posQuota sh a && keyMatch r a.id d sh) = true
      · exfalso
        have h2 : r.customerId = a.id :=
          ((keyMatch_iff _ _ _ _).mp (Bool.and_eq_true_iff.mp hpa).2).1
        have h3 : r.customerId = c.id := ((keyMatch_iff _ _ _ _).mp hkey).1
        exact hane (h2 ▸ h3)
      · show touchBy (a :: cs) d sh now r = _
        unfold touchBy
        rw [List.find?_cons_of_neg _ (by simpa using hpa)]
        exact ih (List.nodup_cons.mp hnd).2 hc'

/-- Touching a row twice equals touching it once: the key is unchanged, so
the same owner is found, and the rewrite collapses. -/
theorem touchBy_idem (cs : List Customer) (d : String) (sh : Shift) (now : Nat)
    (x : DeliveryRow) :
    touchBy cs d sh now (touchBy cs d sh now x) = touchBy cs d sh now x := by
  have hpred : (fun c => posQuota sh c && keyMatch (touchBy cs d sh now x) c.id d sh)
      = (fun c => posQuota sh c && keyMatch x c.id d sh) :=
    funext (fun c => by rw [touchBy_keyMatch])
  cases hf : cs.find? (fun c => posQuota sh c && keyMatch x c.id d sh) with
  | none =>
    rw [touchBy_eq_self_of_none cs d sh now x hf,
      touchBy_eq_self_of_none cs d sh now x hf]
  | some c1 =>
    have hy : touchBy cs d sh now x
        = { x with actualAmount := shiftQuota c1 sh, delivered := true, updatedAt := now } := by
      unfold touchBy
      rw [hf]
    rw [hy]
    unfold touchBy
    have hpred2 : (fun c => posQuota sh c &&
        keyMatch { x with actualAmount := shiftQuota c1 sh, delivered := true, updatedAt := now } c.id d sh)
        = (fun c => posQuota sh c && keyMatch x c.id d sh) :=
      funext (fun c => by simp [keyMatch])
    rw [hpred2, hf]

theorem newRowsOf_mem_key (d : String) (sh : Shift) (now : Nat)
    (cs : List Customer) (base : Nat) (c : Customer) (hc : c ∈ cs) :
    ∃ r ∈ newRowsOf d sh now cs base, keyMatch r c.id d sh = true := by
  induction cs generalizing base with
  | nil => cases hc
  | cons a cs ih =>
    rcases List.mem_cons.mp hc with rfl | hc'
    · exact ⟨_, List.mem_cons_self _ _, by simp [keyMatch]⟩
    · rcases ih (base + 1) hc' with ⟨r, hr, hk⟩
      exact ⟨r, List.mem_cons_of_mem _ hr, hk⟩

/-- The ids of the touched table are the original ids. -/
theorem touch_map_ids (s : Store) (cs : List Customer) (d : String)
    (sh : Shift) (now : Nat) :
    (s.deliveries.map (touchBy cs d sh now)).map (fun r => r.id)
      = s.deliveries.map (fun r => r.id) := by
  rw [List.map_map]
  exact List.map_congr_left (fun x hx => touchBy_id cs d sh now x)

/-- Autofill keeps the store well-formed. -/
theorem WF_autofill (s : Store) (d : String) (sh : Shift) (now : Nat)
    (hwf : WF s) : WF (autofillDeliveries s d sh now).1 := by
  rw [autofill_nf d sh now s hwf]
  have hkeys : KeyUnique (autofillDeliveries s d sh now).1.deliveries :=
    autofill_foldl_keyUnique d sh now _ (s, 0) hwf.keys
  rw [autofill_nf d sh now s hwf] at hkeys
  constructor
  · show (((s.deliveries.map (touchBy (s.customers.filter (fun x => x.isActive)) d sh now)) ++
      newRowsOf d sh now (missingOf s.deliveries (s.customers.filter (fun x => x.isActive)) d sh) s.nextId).map
        (fun r => r.id)).Nodup
    rw [List.map_append]
    refine List.nodup_append.mpr ⟨?_, newRowsOf_ids_nodup d sh now _ s.nextId, ?_⟩
    · rw [touch_map_ids]
      exact hwf.didsNodup
    · intro a ha hb
      rw [touch_map_ids] at ha
      rcases List.mem_map.mp ha with ⟨x, hx, rfl⟩
      rcases List.mem_map.mp hb with ⟨r, hr, he⟩
      have h1 := hwf.idsLt x hx
      have h2 := (newRowsOf_ids d sh now _ s.nextId r hr).1
      omega
  · intro r hr
    rcases List.mem_append.mp hr with h | h
    · rcases List.mem_map.mp h with ⟨x, hx, rfl⟩
      have h2 := hwf.idsLt x hx
      simp only [afAcc, afState]
      rw [touchBy_id]
      omega
    · have h2 := (newRowsOf_ids d sh now _ s.nextId r h).2
      simp only [afAcc, afState]
      omega
  · exact hwf.cidsNodup
  · exact hkeys

/-- After autofill, no active positive-quota customer is missing a row. -/
theorem missingOf_autofill_nil (s : Store) (d : String) (sh : Shift)
    (now : Nat) (_hwf : WF s) :
    missingOf (afState s (s.customers.filter (fun x => x.isActive)) d sh now).deliveries
      (s.customers.filter (fun x => x.isActive)) d sh = [] := by
  unfold missingOf
  rw [List.filter_eq_nil_iff]
  intro c hc hpred
  have hpos : posQuota sh c = true := (Bool.and_eq_true_iff.mp hpred).1
  have hnone : (findDelivery? (afState s (s.customers.filter (fun x => x.isActive)) d sh now).deliveries
      c.id d sh).isNone = true := (Bool.and_eq_true_iff.mp hpred).2
  unfold findDelivery? at hnone
  revert hnone
  show ((afState s _ d sh now).deliveries.find? (fun r => keyMatch r c.id d sh)).isNone = true → False
  intro hnone
  have hsplit : (afState s (s.customers.filter (fun x => x.isActive)) d sh now).deliveries.find?
        (fun r => keyMatch r c.id d sh)
      = ((s.deliveries.find? (fun r => keyMatch r c.id d sh)).map
          (touchBy (s.customers.filter (fun x => x.isActive)) d sh now)).or
        ((newRowsOf d sh now (missingOf s.deliveries (s.customers.filter (fun x => x.isActive)) d sh) s.nextId).find?
          (fun r => keyMatch r c.id d sh)) := by
    show ((s.deliveries.map _) ++ newRowsOf d sh now _ s.nextId).find? _ = _
    rw [List.find?_append]
    congr 1
    exact find?_map_keys _ c.id d sh s.deliveries
      (fun x => touchBy_keyMatch _ d sh now x c.id d sh)
  rw [hsplit] at hnone
  cases hf : s.deliveries.find? (fun r => keyMatch r c.id d sh) with
  | some r₀ =>
    rw [hf] at hnone
    simp at hnone
  | none =>
    rw [hf] at hnone
    have hcm : c ∈ missingOf s.deliveries (s.customers.filter (fun x => x.isActive)) d sh := by
      unfold missingOf
      refine List.mem_filter.mpr ⟨hc, ?_⟩
      rw [hpos]
      unfold findDelivery?
      rw [hf]
      rfl
    rcases newRowsOf_mem_key d sh now _ s.nextId c hcm with ⟨r, hr, hk⟩
    have : ((newRowsOf d sh now (missingOf s.deliveries (s.customers.filter (fun x => x.isActive)) d sh) s.nextId).find?
        (fun r => keyMatch r c.id d sh)).isSome = true := by
      rw [List.find?_isSome]
      exact ⟨r, hr, hk⟩
    have hx2 : (newRowsOf d sh now
        (missingOf s.deliveries (s.customers.filter (fun x => x.isActive)) d sh) s.nextId).find?
          (fun r => keyMatch r c.id d sh) = none := by
      simpa using hnone
    rw [hx2] at this
    simp at this

/-- Touching the autofilled table again changes nothing. -/
theorem touch_autofill_id (s : Store) (d : String) (sh : Shift) (now : Nat)
    (hwf : WF s) :
    (afState s (s.customers.filter (fun x => x.isActive)) d sh now).deliveries.map
        (touchBy (s.customers.filter (fun x => x.isActive)) d sh now)
      = (afState s (s.customers.filter (fun x => x.isActive)) d sh now).deliveries := by
  show ((s.deliveries.map _) ++ newRowsOf d sh now _ s.nextId).map _
    = (s.deliveries.map _) ++ newRowsOf d sh now _ s.nextId
  rw [List.map_append]
  congr 1
  · rw [List.map_map]
    exact List.map_congr_left (fun x hx => touchBy_idem _ d sh now x)
  · have hall : ∀ r ∈ newRowsOf d sh now
        (missingOf s.deliveries (s.customers.filter (fun x => x.isActive)) d sh) s.nextId,
        touchBy (s.customers.filter (fun x => x.isActive)) d sh now r = r := by
      intro r hr
      rcases newRowsOf_struct d sh now _ s.nextId r hr with ⟨c1, hc1, i, he⟩
      have hc1A : c1 ∈ s.customers.filter (fun x => x.isActive) :=
        List.mem_of_mem_filter hc1
      have hpos1 : posQuota sh c1 = true := by
        have := (List.mem_filter.mp hc1).2
        exact (Bool.and_eq_true_iff.mp this).1
      have hkey1 : keyMatch r c1.id d sh = true := by
        rw [he]
        simp [keyMatch]
      rw [touchBy_of_owner _ d sh now r c1 (active_ids_nodup s hwf) hc1A hpos1 hkey1,
        he]
    have h2 := List.map_congr_left (g := id) hall
    simpa using h2

/-- A store in which nobody is missing a row and touching changes nothing is
a fixed point of the autofill normal form. -/
theorem afState_fixpoint (s1 : Store) (A : List Customer) (d : String)
    (sh : Shift) (now : Nat)
    (hmiss : missingOf s1.deliveries A d sh = [])
    (htouch : s1.deliveries.map (touchBy A d sh now) = s1.deliveries) :
    afState s1 A d sh now = s1 := by
  unfold afState
  rw [hmiss, htouch]
  simp [newRowsOf]

/-- C6: autofill is idempotent on well-formed stores (unique primary keys,
ids below the counter, unique delivery key triples, as the database schema
guarantees): running it twice for the same (date, shift) gives exactly the
state of running it once — in particular the second run creates no duplicate
row for any (customerId, date, shift), since the delivery table is
unchanged. -/
theorem autofill_idempotent (s : Store) (d : String) (sh : Shift) (now : Nat)
    (hwf : WF s) :
    autofillDeliveries ((autofillDeliveries s d sh now).1) d sh now
      = autofillDeliveries s d sh now := by
  have hwf1 := WF_autofill s d sh now hwf
  rw [autofill_nf d sh now _ hwf1, autofill_nf d sh now s hwf]
  have hfst : (afAcc s (s.customers.filter (fun x => x.isActive)) d sh now).1
      = afState s (s.customers.filter (fun x => x.isActive)) d sh now := rfl
  rw [hfst]
  have hc : (afState s (s.customers.filter (fun x => x.isActive)) d sh now).customers
      = s.customers := rfl
  rw [hc]
  unfold afAcc
  refine Prod.ext ?_ rfl
  exact afState_fixpoint _ _ d sh now (missingOf_autofill_nil s d sh now hwf)
    (touch_autofill_id s d sh now hwf)

/-- Witness for C6 at the concrete sample store. -/
theorem autofill_idempotent_w :
    autofillDeliveries ((autofillDeliveries sampleStore "2025-03-01" Shift.morning 5).1)
        "2025-03-01" Shift.morning 5
      = autofillDeliveries sampleStore "2025-03-01" Shift.morning 5 := by
  refine autofill_idempotent sampleStore "2025-03-01" Shift.morning 5 ?_
  constructor
  · simp [sampleStore, sampleRow]
  · intro r hr
    simp only [sampleStore] at hr
    rcases List.mem_singleton.mp hr with rfl
    simp [sampleStore, sampleRow]
  · simp [sampleStore, sampleCustomer]
  · simp [sampleStore]

theorem touchBy_customerId (cs : List Customer) (d : String) (sh : Shift)
    (now : Nat) (r : DeliveryRow) :
    (touchBy cs d sh now r).customerId = r.customerId := by
  unfold touchBy
  cases cs.find? (fun c => posQuota sh c && keyMatch r c.id d sh) <;> rfl

/-- The clear rewrite of one row (the body of `clearDeliveries`). -/
theorem clear_deliveries_eq (s : Store) (d : String) (sh : Shift) (nc : Nat) :
    (clearDeliveries s d sh nc).deliveries
      = s.deliveries.map (fun r =>
          if r.date == d && r.shift == sh then
            { r with actualAmount := 0, delivered := false, updatedAt := nc }
          else r) := rfl

theorem clear_keyMatch (d : String) (sh : Shift) (nc : Nat) (x : DeliveryRow)
    (cid e : String) (sh2 : Shift) :
    keyMatch (if x.date == d && x.shift == sh then
        { x with actualAmount := 0, delivered := false, updatedAt := nc }
      else x) cid e sh2 = keyMatch x cid e sh2 := by
  by_cases hcond : (x.date == d && x.shift == sh) = true
  · rw [if_pos hcond]
    simp [keyMatch]
  · rw [if_neg hcond]

/-- Clearing keeps the store well-formed. -/
theorem WF_clear (s : Store) (d : String) (sh : Shift) (nc : Nat)
    (hwf : WF s) : WF (clearDeliveries s d sh nc) := by
  have hid : ∀ x : DeliveryRow,
      (if x.date == d && x.shift == sh then
        { x with actualAmount := 0, delivered := false, updatedAt := nc }
      else x).id = x.id := by
    intro x
    by_cases hcond : (x.date == d && x.shift == sh) = true
    · rw [if_pos hcond]
    · rw [if_neg hcond]
  constructor
  · rw [clear_deliveries_eq, List.map_map]
    have : (s.deliveries.map (fun x => (if x.date == d && x.shift == sh then
        { x with actualAmount := 0, delivered := false, updatedAt := nc }
      else x).id)) = s.deliveries.map (fun r => r.id) :=
      List.map_congr_left (fun x hx => hid x)
    rw [show ((fun r : DeliveryRow => r.id) ∘ (fun x => if x.date == d && x.shift == sh then
        { x with actualAmount := 0, delivered := false, updatedAt := nc }
      else x)) = fun x : DeliveryRow => (if x.date == d && x.shift == sh then
        { x with actualAmount := 0, delivered := false, updatedAt := nc }
      else x).id from rfl]
    rw [this]
    exact hwf.didsNodup
  · intro r hr
    rw [clear_deliveries_eq] at hr
    rcases List.mem_map.mp hr with ⟨x, hx, rfl⟩
    have := hwf.idsLt x hx
    rw [hid x]
    exact this
  · exact hwf.cidsNodup
  · exact clearDeliveries_keyUnique s d sh nc hwf.keys

/-- A store exhibiting the failure of clear-then-autofill = autofill: an
inactive customer's delivered row for the (date, shift). -/
def cxStore : Store :=
  { customers := [{ sampleCustomer with isActive := false }],
    deliveries := [{ sampleRow with actualAmount := 5, delivered := true }],
    stocks := [], nextId := 1 }

/-- Counterexample for C7 as stated: on `cxStore` (one inactive customer
holding a delivered 2025-03-01 morning row), autofill alone leaves the row
delivered, while clear followed by autofill zeroes it: the final states
differ. -/
theorem clear_autofill_cx :
    (autofillDeliveries (clearDeliveries cxStore "2025-03-01" Shift.morning 3)
        "2025-03-01" Shift.morning 4).1
      ≠ (autofillDeliveries cxStore "2025-03-01" Shift.morning 4).1 := by
  intro h
  have h2 := congrArg (fun t => t.deliveries.map (fun r => r.delivered)) h
  simp +decide [autofillDeliveries, clearDeliveries, cxStore, sampleCustomer,
    sampleRow] at h2

/-- C7 amended: clear followed by autofill reproduces the state of autofill
alone, provided the store is well-formed and every existing row for the
requested (date, shift) belongs to an active customer with positive
per-shift quota (so autofill rewrites every row clear touched). -/
theorem clear_then_autofill (s : Store) (d : String) (sh : Shift)
    (now nc : Nat) (hwf : WF s)
    (hcov : ∀ r ∈ s.deliveries, r.date = d → r.shift = sh →
      ∃ c ∈ s.customers, c.id = r.customerId ∧ c.isActive = true ∧
        0 < shiftQuota c sh) :
    autofillDeliveries (clearDeliveries s d sh nc) d sh now
      = autofillDeliveries s d sh now := by
  have hwfc : WF (clearDeliveries s d sh nc) := WF_clear s d sh nc hwf
  rw [autofill_nf d sh now _ hwfc, autofill_nf d sh now s hwf]
  have hc : (clearDeliveries s d sh nc).customers = s.customers := rfl
  rw [hc]
  unfold afAcc
  refine Prod.ext ?_ rfl
  have hmiss : missingOf (clearDeliveries s d sh nc).deliveries
      (s.customers.filter (fun x => x.isActive)) d sh
      = missingOf s.deliveries (s.customers.filter (fun x => x.isActive)) d sh := by
    unfold missingOf
    refine List.filter_congr (fun c1 hc1 => ?_)
    have hfind : findDelivery? (clearDeliveries s d sh nc).deliveries c1.id d sh
        = (findDelivery? s.deliveries c1.id d sh).map
          (fun r => if r.date == d && r.shift == sh then
            { r with actualAmount := 0, delivered := false, updatedAt := nc }
          else r) := by
      rw [clear_deliveries_eq]
      exact find?_map_keys _ c1.id d sh s.deliveries
        (fun x => clear_keyMatch d sh nc x c1.id d sh)
    rw [hfind]
    cases findDelivery? s.deliveries c1.id d sh <;> rfl
  have hmap : (clearDeliveries s d sh nc).deliveries.map
        (touchBy (s.customers.filter (fun x => x.isActive)) d sh now)
      = s.deliveries.map
        (touchBy (s.customers.filter (fun x => x.isActive)) d sh now) := by
    rw [clear_deliveries_eq, List.map_map]
    refine List.map_congr_left (fun x hx => ?_)
    show touchBy _ d sh now (if x.date == d && x.shift == sh then
      { x with actualAmount := 0, delivered := false, updatedAt := nc } else x)
      = touchBy _ d sh now x
    by_cases hcond : (x.date == d && x.shift == sh) = true
    · have hdate : x.date = d := by
        have := (Bool.and_eq_true_iff.mp hcond).1
        simpa using this
      have hshift : x.shift = sh := by
        have := (Bool.and_eq_true_iff.mp hcond).2
        simpa using this
      rcases hcov x hx hdate hshift with ⟨c1, hc1, hid1, hact1, hq1⟩
      have hc1A : c1 ∈ s.customers.filter (fun y => y.isActive) :=
        List.mem_filter.mpr ⟨hc1, by simp [hact1]⟩
      have hpos1 : posQuota sh c1 = true := by
        unfold posQuota
        rw [decide_eq_true_eq]
        exact hq1
      have hkey1 : keyMatch x c1.id d sh = true :=
        (keyMatch_iff _ _ _ _).mpr ⟨hid1.symm, hdate, hshift⟩
      have hkey2 : keyMatch (if x.date == d && x.shift == sh then
          { x with actualAmount := 0, delivered := false, updatedAt := nc }
        else x) c1.id d sh = true := by
        rw [clear_keyMatch]
        exact hkey1
      rw [if_pos hcond] at hkey2 ⊢
      rw [touchBy_of_owner _ d sh now _ c1 (active_ids_nodup s hwf) hc1A hpos1 hkey2,
        touchBy_of_owner _ d sh now x c1 (active_ids_nodup s hwf) hc1A hpos1 hkey1]
    · rw [if_neg hcond]
  unfold afState
  rw [hmiss, hmap]
  rfl

/-- Witness for the amended C7 at the concrete sample store (the sample
customer is active with positive morning quota and owns the only row). -/
theorem clear_then_autofill_w :
    autofillDeliveries (clearDeliveries sampleStore "2025-03-01" Shift.morning 3)
        "2025-03-01" Shift.morning 4
      = autofillDeliveries sampleStore "2025-03-01" Shift.morning 4 := by
  refine clear_then_autofill sampleStore "2025-03-01" Shift.morning 4 3 ?_ ?_
  · constructor
    · simp [sampleStore, sampleRow]
    · intro r hr
      simp only [sampleStore] at hr
      rcases List.mem_singleton.mp hr with rfl
      simp [sampleStore, sampleRow]
    · simp [sampleStore, sampleCustomer]
    · simp [sampleStore]
  · intro r hr h1 h2
    simp only [sampleStore] at hr
    rcases List.mem_singleton.mp hr with rfl
    refine ⟨sampleCustomer, by simp [sampleStore], ?_, rfl, ?_⟩
    · simp [sampleCustomer, sampleRow]
    · show (0 : ℚ) < shiftQuota sampleCustomer Shift.morning
      simp [shiftQuota, sampleCustomer]

/-- Counterexample for C5 as stated: on the sample store (one active
customer with quota 2 whose 2025-03-01 morning row already exists), the
Firestore autofill updates that row to delivered with the quota — a touched
row — yet reports count 0, because only created rows are counted. -/
theorem autofill_count_cx :
    (autofillDeliveriesFS sampleStore "2025-03-01" Shift.morning 9).2 = 0
    ∧ ((autofillDeliveriesFS sampleStore "2025-03-01" Shift.morning 9).1.deliveries.map
        (fun r => (r.actualAmount, r.delivered))) = [((2 : ℚ), true)] := by
  have hq : ¬ ((2 : ℚ) ≤ 0) := by norm_num
  constructor
  · simp +decide [autofillDeliveriesFS, autofillStepFS, sampleStore,
      sampleCustomer, sampleRow, findDelivery?, keyMatch, updateById,
      shiftQuota, hq]
  · simp +decide [autofillDeliveriesFS, autofillStepFS, sampleStore,
      sampleCustomer, sampleRow, findDelivery?, keyMatch, updateById,
      shiftQuota, hq]

/-- C5 amended: on a well-formed store, the transactional (Prisma) autofill
returns the number of active customers with positive per-shift quota — one
per touched row; every such customer ends with a row for (date, shift)
carrying actualAmount = quota and delivered = true (created when absent,
rewritten when present); and the rows of active customers whose quota for
the shift is ≤ 0 are untouched.  The Firestore variant applies the same
state change but returns only the created-row count
(see the counterexample). -/
theorem autofill_effect (s : Store) (d : String) (sh : Shift) (now : Nat)
    (hwf : WF s) :
    ((autofillDeliveries s d sh now).2
      = ((s.customers.filter (fun c => c.isActive)).filter
          (fun c => 0 < shiftQuota c sh)).length)
    ∧ (∀ c ∈ s.customers, c.isActive = true → 0 < shiftQuota c sh →
        ∃ r ∈ (autofillDeliveries s d sh now).1.deliveries,
          r.customerId = c.id ∧ r.date = d ∧ r.shift = sh ∧
          r.actualAmount = shiftQuota c sh ∧ r.delivered = true)
    ∧ (∀ c ∈ s.customers, c.isActive = true → shiftQuota c sh ≤ 0 →
        (autofillDeliveries s d sh now).1.deliveries.filter
            (fun r => r.customerId == c.id)
          = s.deliveries.filter (fun r => r.customerId == c.id)) := by
  refine ⟨?_, ?_, ?_⟩
  · rw [autofill_nf d sh now s hwf]
    rfl
  · intro c hc hact hq
    rw [autofill_nf d sh now s hwf]
    have hcA : c ∈ s.customers.filter (fun x => x.isActive) :=
      List.mem_filter.mpr ⟨hc, by simp [hact]⟩
    have hpos : posQuota sh c = true := by
      unfold posQuota
      rw [decide_eq_true_eq]
      exact hq
    cases hf : s.deliveries.find? (fun r => keyMatch r c.id d sh) with
    | some r₀ =>
      have hr0mem : r₀ ∈ s.deliveries := List.mem_of_find?_eq_some hf
      have hr0key : keyMatch r₀ c.id d sh = true := by
        simpa using List.find?_some hf
      refine ⟨touchBy (s.customers.filter (fun x => x.isActive)) d sh now r₀,
        ?_, ?_⟩
      · show _ ∈ s.deliveries.map (touchBy _ d sh now) ++ newRowsOf d sh now _ s.nextId
        exact List.mem_append_left _ (List.mem_map_of_mem _ hr0mem)
      · rw [touchBy_of_owner _ d sh now r₀ c (active_ids_nodup s hwf) hcA hpos hr0key]
        rcases (keyMatch_iff r₀ c.id d sh).mp hr0key with ⟨k1, k2, k3⟩
        exact ⟨k1, k2, k3, rfl, rfl⟩
    | none =>
      have hcm : c ∈ missingOf s.deliveries
          (s.customers.filter (fun x => x.isActive)) d sh := by
        unfold missingOf
        refine List.mem_filter.mpr ⟨hcA, ?_⟩
        rw [hpos]
        unfold findDelivery?
        rw [hf]
        rfl
      rcases newRowsOf_mem_key d sh now _ s.nextId c hcm with ⟨r, hr, hk⟩
      refine ⟨r, ?_, ?_⟩
      · show r ∈ s.deliveries.map (touchBy _ d sh now) ++ newRowsOf d sh now _ s.nextId
        exact List.mem_append_right _ hr
      · rcases newRowsOf_struct d sh now _ s.nextId r hr with ⟨c1, hc1, i, he⟩
        have hrcid : r.customerId = c.id := ((keyMatch_iff _ _ _ _).mp hk).1
        have hc1id : c1.id = c.id := by
          rw [he] at hrcid
          simpa using hrcid
        have hc1c : c1 = c := List.inj_on_of_nodup_map hwf.cidsNodup
          (List.mem_of_mem_filter (List.mem_of_mem_filter hc1)) hc hc1id
        rw [he, hc1c]
        exact ⟨rfl, rfl, rfl, rfl, rfl⟩
  · intro c hc hact hqle
    rw [autofill_nf d sh now s hwf]
    show (List.filter _ (s.deliveries.map (touchBy _ d sh now) ++
      newRowsOf d sh now _ s.nextId)) = _
    rw [List.filter_append]
    have h1 : (newRowsOf d sh now (missingOf s.deliveries
        (s.customers.filter (fun x => x.isActive)) d sh) s.nextId).filter
          (fun r => r.customerId == c.id) = [] := by
      rw [List.filter_eq_nil_iff]
      intro r hr hbe
      rcases newRowsOf_customerId d sh now _ s.nextId r hr with ⟨c1, hc1, he⟩
      have hbe' : r.customerId = c.id := by simpa using hbe
      have hc1id : c1.id = c.id := by rw [← he]; exact hbe'
      have hc1c : c1 = c := List.inj_on_of_nodup_map hwf.cidsNodup
        (List.mem_of_mem_filter (List.mem_of_mem_filter hc1)) hc hc1id
      have hp1 := (Bool.and_eq_true_iff.mp (List.mem_filter.mp hc1).2).1
      rw [hc1c] at hp1
      unfold posQuota at hp1
      rw [decide_eq_true_eq] at hp1
      exact absurd hp1 (not_lt.mpr hqle)
    have hpc : ((fun r : DeliveryRow => r.customerId == c.id) ∘
        touchBy (s.customers.filter (fun x => x.isActive)) d sh now)
        = fun r : DeliveryRow => r.customerId == c.id :=
      funext (fun r => by
        show ((touchBy _ d sh now r).customerId == c.id) = _
        rw [touchBy_customerId])
    have h2 : (s.deliveries.map (touchBy
        (s.customers.filter (fun x => x.isActive)) d sh now)).filter
          (fun r => r.customerId == c.id)
        = s.deliveries.filter (fun r => r.customerId == c.id) := by
      rw [List.filter_map, hpc]
      have hself : ∀ x ∈ s.deliveries.filter (fun r => r.customerId == c.id),
          touchBy (s.customers.filter (fun y => y.isActive)) d sh now x = x := by
        intro x hx
        refine touchBy_eq_self_of_none _ d sh now x ?_
        rw [List.find?_eq_none]
        intro c1 hc1 hpred
        have hkm := (Bool.and_eq_true_iff.mp hpred).2
        have hcid1 : x.customerId = c1.id := ((keyMatch_iff _ _ _ _).mp hkm).1
        have hxc : (x.customerId == c.id) = true := (List.mem_filter.mp hx).2
        have hcid2 : x.customerId = c.id := by simpa using hxc
        have hc1c : c1 = c := List.inj_on_of_nodup_map hwf.cidsNodup
          (List.mem_of_mem_filter hc1) hc (hcid1.symm.trans hcid2)
        have hp1 := (Bool.and_eq_true_iff.mp hpred).1
        rw [hc1c] at hp1
        unfold posQuota at hp1
        rw [decide_eq_true_eq] at hp1
        exact absurd hp1 (not_lt.mpr hqle)
      have hcongr := List.map_congr_left (g := id) hself
      simpa using hcongr
    rw [h1, h2, List.append_nil]

/-- Witness for the amended C5 at the sample store: the count is 1 (the one
active customer with positive quota). -/
theorem autofill_effect_w :
    (autofillDeliveries sampleStore "2025-03-01" Shift.morning 5).2 = 1 := by
  have hwfs : WF sampleStore := by
    constructor
    · simp [sampleStore, sampleRow]
    · intro r hr
      simp only [sampleStore] at hr
      rcases List.mem_singleton.mp hr with rfl
      simp [sampleStore, sampleRow]
    · simp [sampleStore, sampleCustomer]
    · simp [sampleStore]
  rw [(autofill_effect sampleStore "2025-03-01" Shift.morning 5 hwfs).1]
  simp +decide [sampleStore, sampleCustomer, shiftQuota]

/-- `custDeliveries` written with the filter conditions in the order the
claims state them. -/
theorem custDeliveries_eq (s : Store) (c : Customer) (m y : Nat) :
    custDeliveries s c m y = s.deliveries.filter (fun r =>
      r.delivered && r.customerId == c.id &&
        monthStart y m ≤ r.date && r.date ≤ monthEnd y m) := by
  unfold custDeliveries
  refine List.filter_congr (fun r hr => ?_)
  cases r.delivered <;> cases hb : r.customerId == c.id <;>
    cases hs : decide (monthStart y m ≤ r.date) <;>
    cases he : decide (r.date ≤ monthEnd y m) <;> simp [hb, hs, he]

/-- C1: every monthly billing entry belongs to an active customer and carries
totalLiters = the sum of actualAmount over that customer's delivered=true
deliveries with date between the first and last calendar day of the month,
and totalAmount = totalLiters × the customer's current pricePerLiter; every
active customer gets such an entry. -/
theorem monthly_billing_totals (s : Store) (m y : Nat) :
    (∀ b ∈ getMonthlyBilling s m y, ∃ c ∈ s.customers,
      c.isActive = true ∧ b.customerId = c.id ∧ b.pricePerLiter = c.pricePerLiter
      ∧ b.totalLiters = ((s.deliveries.filter (fun r =>
          r.delivered && r.customerId == c.id &&
            monthStart y m ≤ r.date && r.date ≤ monthEnd y m)).map
        (fun r => r.actualAmount)).sum
      ∧ b.totalAmount = b.totalLiters * c.pricePerLiter)
    ∧ (∀ c ∈ s.customers, c.isActive = true →
        ∃ b ∈ getMonthlyBilling s m y, b.customerId = c.id) := by
  constructor
  · intro b hb
    rcases List.mem_map.mp hb with ⟨c, hc, rfl⟩
    have hc' : c ∈ s.customers.filter (fun c => c.isActive) :=
      (List.mem_insertionSort _).mp hc
    have hmem := List.mem_filter.mp hc'
    refine ⟨c, hmem.1, by simpa using hmem.2, rfl, rfl, ?_, rfl⟩
    show (billingFor s c m y).totalLiters = _
    rw [← custDeliveries_eq]
    simp only [billingFor, billingFold]
    rw [billingFold_fst]
    simp
  · intro c hc hact
    refine ⟨billingFor s c m y, List.mem_map_of_mem _ ?_, rfl⟩
    exact (List.mem_insertionSort _).mpr (List.mem_filter.mpr ⟨hc, by simp [hact]⟩)

/-- A concrete store for the billing witnesses: one active customer with two
delivered March 2025 rows. -/
def billStore : Store :=
  { emptyStore with
    customers := [sampleCustomer],
    deliveries := [rowToday, rowYesterday] }

/-- Witness for C1 at a concrete store: the single active customer's March
2025 summary exists and is keyed by the customer id. -/
theorem monthly_billing_totals_w :
    ∃ b ∈ getMonthlyBilling billStore 3 2025, b.customerId = "c1" := by
  exact (monthly_billing_totals billStore 3 2025).2 sampleCustomer
    (by simp [billStore, emptyStore]) rfl

/-- C2: every monthly billing entry's daily breakdown is sorted by date
ascending, each daily entry's totalAmount is its morningAmount +
eveningAmount, and the per-day buckets sum back to totalLiters. -/
theorem monthly_billing_breakdown (s : Store) (m y : Nat) :
    ∀ b ∈ getMonthlyBilling s m y,
      List.Pairwise (fun a e => a.date ≤ e.date) b.dailyBreakdown
      ∧ (∀ e ∈ b.dailyBreakdown, e.totalAmount = e.morningAmount + e.eveningAmount)
      ∧ (b.dailyBreakdown.map (fun e => e.morningAmount + e.eveningAmount)).sum
          = b.totalLiters := by
  intro b hb
  rcases List.mem_map.mp hb with ⟨c, hc, rfl⟩
  have hb2 : (billingFor s c m y).dailyBreakdown =
      (List.insertionSort (fun a b => a.1 ≤ b.1)
        (billingFold (custDeliveries s c m y)).2).map toDailyRecord := rfl
  have hb1 : (billingFor s c m y).totalLiters =
      (billingFold (custDeliveries s c m y)).1 := rfl
  refine ⟨?_, ?_, ?_⟩
  · have hs := List.sorted_insertionSort (fun a b => a.1 ≤ b.1)
      (billingFold (custDeliveries s c m y)).2
    rw [hb2]
    exact List.Pairwise.map _ (fun a e h => h) hs
  · intro e he
    rw [hb2] at he
    rcases List.mem_map.mp he with ⟨p, hp, rfl⟩
    rfl
  · have hperm := List.perm_insertionSort (fun a b => a.1 ≤ b.1)
      (billingFold (custDeliveries s c m y)).2
    have hfold := (billingFold_snd (custDeliveries s c m y) 0 [] (by simp)).2
    have hfst := billingFold_fst (custDeliveries s c m y) 0 []
    rw [hb2, hb1, List.map_map]
    have hone : (fun e => e.morningAmount + e.eveningAmount) ∘ toDailyRecord =
        fun p : String × ℚ × ℚ => p.2.1 + p.2.2 := rfl
    rw [hone]
    have hmap : ((List.insertionSort (fun a b => a.1 ≤ b.1)
        (billingFold (custDeliveries s c m y)).2).map
          (fun p : String × ℚ × ℚ => p.2.1 + p.2.2)).sum
          = bsum (billingFold (custDeliveries s c m y)).2 :=
      (hperm.map (fun p : String × ℚ × ℚ => p.2.1 + p.2.2)).sum_eq
    rw [hmap]
    show bsum (billingFold (custDeliveries s c m y)).2 =
      (billingFold (custDeliveries s c m y)).1
    unfold billingFold
    rw [hfold, hfst]
    simp [bsum]

/-- Witness for C2 at a concrete store: the summary of the sample customer
has per-day buckets summing back to its total liters. -/
theorem monthly_billing_breakdown_w :
    ((billingFor billStore sampleCustomer 3 2025).dailyBreakdown.map
      (fun e => e.morningAmount + e.eveningAmount)).sum
        = (billingFor billStore sampleCustomer 3 2025).totalLiters := by
  have hmem : billingFor billStore sampleCustomer 3 2025
      ∈ getMonthlyBilling billStore 3 2025 :=
    List.mem_map_of_mem _ ((List.mem_insertionSort _).mpr
      (List.mem_filter.mpr ⟨by simp [billStore, emptyStore], by simp [sampleCustomer]⟩))
  exact (monthly_billing_breakdown billStore 3 2025 _ hmem).2.2

/-- C9: the yesterday comparison returns
`round(((today − yesterday) / yesterday) × 100)` when yesterday's total is
positive, and 0 whenever yesterday's total is 0 (no division happens then). -/
theorem comparison_zero_guard (s : Store) (td yd : String) :
    (0 < dayTotal s.deliveries yd →
      (getYesterdayComparison s td yd).2.2 =
        jsRound (((dayTotal s.deliveries td - dayTotal s.deliveries yd) /
          dayTotal s.deliveries yd) * 100))
    ∧ (dayTotal s.deliveries yd = 0 →
        (getYesterdayComparison s td yd).2.2 = 0) := by
  constructor
  · intro h
    simp [getYesterdayComparison, if_pos h]
  · intro h
    have h0 : ¬ (0 : ℚ) < dayTotal s.deliveries yd := by simp [h]
    simp only [getYesterdayComparison, if_neg h0]
    show jsRound 0 = 0
    simp [jsRound]
    norm_num [Int.floor_eq_zero_iff]

/-- A store with a delivered total only for 2025-03-02. -/
def compStoreA : Store := { emptyStore with deliveries := [rowToday] }

/-- A store with delivered totals for both 2025-03-01 and 2025-03-02. -/
def compStoreB : Store := { emptyStore with deliveries := [rowToday, rowYesterday] }

/-- Witness for C9: with 50 liters delivered today and nothing yesterday the
percentage change is 0, and with 40 yesterday and 50 today it is 25. -/
theorem comparison_zero_guard_w :
    (getYesterdayComparison compStoreA "2025-03-02" "2025-03-01").2.2 = 0
    ∧ (getYesterdayComparison compStoreB "2025-03-02" "2025-03-01").2.2 = 25 := by
  constructor
  · exact (comparison_zero_guard compStoreA "2025-03-02" "2025-03-01").2
      (by simp +decide [dayTotal, compStoreA, emptyStore, rowToday, sampleRow,
        List.filter_cons])
  · have hy : dayTotal compStoreB.deliveries "2025-03-01" = 40 := by
      simp +decide [dayTotal, compStoreB, emptyStore, rowToday, rowYesterday,
        sampleRow, List.filter_cons]
    have ht : dayTotal compStoreB.deliveries "2025-03-02" = 50 := by
      simp +decide [dayTotal, compStoreB, emptyStore, rowToday, rowYesterday,
        sampleRow, List.filter_cons]
    have h := (comparison_zero_guard compStoreB "2025-03-02" "2025-03-01").1
      (by rw [hy]; norm_num)
    rw [h, ht, hy]
    norm_num [jsRound, Int.floor_eq_iff]

end DairySpec
